import Mathlib

/-!
# CardioCoach MVP — verification of the extraction/rule-engine core

Shallow embedding of the core logic of `app/schemas.py`,
`app/services/rules_engine.py` and `app/services/extractor.py`.

Python strings are modelled as Lean `String`s; `str.lower` is modelled on
the ASCII range (the only range the patterns and drug tables use);
Python's truthiness test on a list (`if stopped_thinner:`) is modelled by
non-emptiness; Python's `in` operator on strings is substring containment.
-/

namespace CardioCoach

/-! ## String helpers (Python `str` operations used by the core) -/

/-- ASCII lower-casing of one character, as `str.lower` acts on the ASCII
range (`'A'..'Z'` shifted by 32, everything else untouched). -/
def lowerCh (c : Char) : Char :=
  if 65 ≤ c.toNat ∧ c.toNat ≤ 90 then Char.ofNat (c.toNat + 32) else c

/-- Model of Python `s.lower()` (ASCII range). -/
def pyLower (s : String) : String := ⟨s.data.map lowerCh⟩

/-- Model of Python `" ".join(l)`. -/
def joinSpace (l : List String) : String := String.intercalate " " l

/-- `charsLead p l`: the character list `p` is an initial segment of `l`. -/
def charsLead : List Char → List Char → Bool
  | [], _ => true
  | _ :: _, [] => false
  | a :: as, b :: bs => a == b && charsLead as bs

/-- `charsWithin needle hay`: `needle` occurs contiguously inside `hay`. -/
def charsWithin (needle : List Char) : List Char → Bool
  | [] => charsLead needle []
  | c :: cs => charsLead needle (c :: cs) || charsWithin needle cs

/-- Model of Python `needle in hay` for strings (substring containment). -/
def strHas (hay needle : String) : Bool := charsWithin needle.data hay.data

/-! ## Data model (`app/schemas.py`) -/

/-- `MedicationChange` of `app/schemas.py`.  The `action` field is a string
constrained by the pydantic `Literal` to the five allowed values; the
constraint is enforced by the validation step (`asMed` below), so the
engine-side type carries a plain string exactly like the wire value. -/
structure MedicationChange where
  name : String
  action : String
  dose : Option String
  deriving DecidableEq, Repr

/-- `FollowUpItem` of `app/schemas.py`. -/
structure FollowUpItem where
  type : String
  when : String
  location : Option String
  deriving DecidableEq, Repr

/-- `ExtractionResult` of `app/schemas.py`. -/
structure ExtractionResult where
  diagnoses : List String
  procedures : List String
  medication_changes : List MedicationChange
  follow_up : List FollowUpItem
  pending_tests : List String
  red_flags : List String
  deriving DecidableEq, Repr

/-- `RuleAlert` of `app/schemas.py` (severity is one of
`"info" | "warning" | "critical"`). -/
structure RuleAlert where
  code : String
  severity : String
  message : String
  suggested_question : Option String
  deriving DecidableEq, Repr

/-! ## Rule engine (`app/services/rules_engine.py`) -/

def ANTICOAGULANTS : List String :=
  ["apixaban", "rivaroxaban", "edoxaban", "dabigatran", "warfarin"]

def ACE_ARB_ARNI : List String :=
  ["ramipril", "lisinopril", "perindopril", "enalapril",
   "losartan", "candesartan", "valsartan", "sacubitril"]

def BETA_BLOCKERS : List String :=
  ["bisoprolol", "carvedilol", "metoprolol", "nebivolol"]

def STATINS : List String :=
  ["atorvastatin", "rosuvastatin", "simvastatin", "pravastatin"]

/-- Effect of `_lower_meds`: each medication's `name` is lower-cased
(the Python loop mutates the items in place; the resulting list is the
input list with every `name` lower-cased and nothing else changed). -/
def lower_meds (meds : List MedicationChange) : List MedicationChange :=
  meds.map fun m => { m with name := pyLower m.name }

def afAlert : RuleAlert :=
  { code := "AF_AC_STOPPED"
    severity := "critical"
    message := "Anticoagulant appears to have been stopped in a patient with atrial fibrillation. This may increase stroke risk and should be reviewed urgently."
    suggested_question := some "My blood thinner seems to have been stopped even though I have atrial fibrillation. Is this safe?" }

def fuAlert : RuleAlert :=
  { code := "MI_NO_CARDIO_FU"
    severity := "warning"
    message := "A heart attack / ACS is documented but no cardiology clinic follow-up was found."
    suggested_question := some "Should I have a follow-up appointment with a cardiologist?" }

def statinAlert : RuleAlert :=
  { code := "MI_NO_STATIN"
    severity := "warning"
    message := "A heart attack / ACS is documented but no statin medication was identified."
    suggested_question := some "Should I be on a statin to reduce my risk after a heart attack?" }

def hfAlert : RuleAlert :=
  { code := "HF_INCOMPLETE_THERAPY"
    severity := "warning"
    message := "Heart failure is documented but guideline-standard medications (ACEi/ARB/ARNI and beta-blocker) are not clearly present."
    suggested_question := some "Are my heart failure medications complete?" }

def redflagAlert : RuleAlert :=
  { code := "NO_REDFLAG_ADVICE"
    severity := "info"
    message := "An acute illness is documented but no red-flag safety advice was identified."
    suggested_question := some "What symptoms mean I should seek urgent help?" }

def daptAlert : RuleAlert :=
  { code := "PCI_NO_DAPT_PLAN"
    severity := "info"
    message := "PCI / angioplasty is documented but no plan for DAPT duration or wound review was found."
    suggested_question := some "How long should I stay on both blood thinners after my stent?" }

def acute_terms : List String :=
  ["mi", "myocardial infarction", "hf", "heart failure",
   "pneumonia", "pulmonary embolism", "stroke", "tia"]

/-- `run_rules` of `app/services/rules_engine.py`: the six rules evaluated
in order, appending each fired alert (rules 2 and 3 share the MI/ACS
branch, exactly as in the source). -/
def run_rules (extraction : ExtractionResult) : List RuleAlert :=
  let diagnoses_text := pyLower (joinSpace extraction.diagnoses)
  let procedures_text := pyLower (joinSpace extraction.procedures)
  let meds := lower_meds extraction.medication_changes
  let rule1 : List RuleAlert :=
    if strHas diagnoses_text "atrial fibrillation" || strHas diagnoses_text "af" then
      let stopped_thinner := meds.filter fun m =>
        m.action == "stop" && ANTICOAGULANTS.any fun drug => strHas m.name drug
      if !stopped_thinner.isEmpty then [afAlert] else []
    else []
  let rule23 : List RuleAlert :=
    if ["mi", "myocardial infarction", "acs"].any (fun term => strHas diagnoses_text term) then
      let has_fu := extraction.follow_up.any fun fu => strHas (pyLower fu.type) "cardio"
      let has_statin := meds.any fun m => STATINS.any fun statin => strHas m.name statin
      (if !has_fu then [fuAlert] else []) ++ (if !has_statin then [statinAlert] else [])
    else []
  let rule4 : List RuleAlert :=
    if strHas diagnoses_text "heart failure" || strHas diagnoses_text "hf" then
      let has_ace_arb_arni := meds.any fun m => ACE_ARB_ARNI.any fun drug => strHas m.name drug
      let has_beta_blocker := meds.any fun m => BETA_BLOCKERS.any fun bb => strHas m.name bb
      if !(has_ace_arb_arni && has_beta_blocker) then [hfAlert] else []
    else []
  let rule5 : List RuleAlert :=
    if (acute_terms.any fun term => strHas diagnoses_text term) && extraction.red_flags.isEmpty then
      [redflagAlert]
    else []
  let rule6 : List RuleAlert :=
    if ["pci", "angioplasty"].any (fun term => strHas procedures_text term) then
      let has_dapt_or_wound_fu := extraction.follow_up.any fun fu =>
        ["wound", "stent", "site", "dapt", "dual antiplatelet"].any fun keyword =>
          strHas (pyLower fu.type) keyword
      if !has_dapt_or_wound_fu then [daptAlert] else []
    else []
  rule1 ++ rule23 ++ rule4 ++ rule5 ++ rule6

/-! ### The six trigger conditions, stated separately from `run_rules` -/

/-- The lower-cased, space-joined diagnoses text the engine matches on. -/
def diagText (r : ExtractionResult) : String := pyLower (joinSpace r.diagnoses)

/-- The lower-cased, space-joined procedures text. -/
def procText (r : ExtractionResult) : String := pyLower (joinSpace r.procedures)

/-- Rule 1 trigger: AF diagnosis and a stopped anticoagulant. -/
def trig1 (r : ExtractionResult) : Bool :=
  (strHas (diagText r) "atrial fibrillation" || strHas (diagText r) "af") &&
    !((lower_meds r.medication_changes).filter fun m =>
        m.action == "stop" && ANTICOAGULANTS.any fun drug => strHas m.name drug).isEmpty

/-- Shared MI/ACS diagnosis condition of rules 2 and 3. -/
def miTrig (r : ExtractionResult) : Bool :=
  ["mi", "myocardial infarction", "acs"].any fun term => strHas (diagText r) term

/-- Rule 2 trigger: MI/ACS and no cardiology follow-up. -/
def trig2 (r : ExtractionResult) : Bool :=
  miTrig r && !(r.follow_up.any fun fu => strHas (pyLower fu.type) "cardio")

/-- Rule 3 trigger: MI/ACS and no statin. -/
def trig3 (r : ExtractionResult) : Bool :=
  miTrig r && !((lower_meds r.medication_changes).any fun m =>
    STATINS.any fun statin => strHas m.name statin)

/-- Rule 4 trigger: heart failure and incomplete (ACE/ARB/ARNI + BB) therapy. -/
def trig4 (r : ExtractionResult) : Bool :=
  (strHas (diagText r) "heart failure" || strHas (diagText r) "hf") &&
    !(((lower_meds r.medication_changes).any fun m =>
        ACE_ARB_ARNI.any fun drug => strHas m.name drug) &&
      ((lower_meds r.medication_changes).any fun m =>
        BETA_BLOCKERS.any fun bb => strHas m.name bb))

/-- Rule 5 trigger: acute diagnosis and empty red-flag list. -/
def trig5 (r : ExtractionResult) : Bool :=
  (acute_terms.any fun term => strHas (diagText r) term) && r.red_flags.isEmpty

/-- Rule 6 trigger: PCI/angioplasty and no DAPT/wound follow-up. -/
def trig6 (r : ExtractionResult) : Bool :=
  (["pci", "angioplasty"].any fun term => strHas (procText r) term) &&
    !(r.follow_up.any fun fu =>
      ["wound", "stent", "site", "dapt", "dual antiplatelet"].any fun keyword =>
        strHas (pyLower fu.type) keyword)

/-- `optList b a` is `[a]` when `b` holds and `[]` otherwise: one rule's
contribution to the alert list. -/
def optList (b : Bool) (a : RuleAlert) : List RuleAlert :=
  if b then [a] else []

/-- Structure lemma: `run_rules` is the concatenation of the six rules'
independent contributions, in the fixed order 1→6. -/
theorem run_rules_struct (r : ExtractionResult) :
    run_rules r =
      optList (trig1 r) afAlert ++ optList (trig2 r) fuAlert ++
      optList (trig3 r) statinAlert ++ optList (trig4 r) hfAlert ++
      optList (trig5 r) redflagAlert ++ optList (trig6 r) daptAlert := by
  unfold run_rules optList trig1 trig2 trig3 trig4 trig5 trig6 miTrig diagText procText
  cases h1 : strHas (pyLower (joinSpace r.diagnoses)) "atrial fibrillation" ||
      strHas (pyLower (joinSpace r.diagnoses)) "af" <;>
    cases h2 : ["mi", "myocardial infarction", "acs"].any
        (fun term => strHas (pyLower (joinSpace r.diagnoses)) term) <;>
      cases h4 : strHas (pyLower (joinSpace r.diagnoses)) "heart failure" ||
          strHas (pyLower (joinSpace r.diagnoses)) "hf" <;>
        cases h6 : ["pci", "angioplasty"].any
            (fun term => strHas (pyLower (joinSpace r.procedures)) term) <;>
          simp [h1, h2, h4, h6, List.append_assoc]

/-! ### Supporting lemmas for the rule engine -/

theorem toNat_ofNat_valid {n : Nat} (h : n.isValidChar) : (Char.ofNat n).toNat = n := by
  rw [Char.ofNat, dif_pos h]
  rfl

theorem lowerCh_idem (c : Char) : lowerCh (lowerCh c) = lowerCh c := by
  unfold lowerCh
  by_cases h : 65 ≤ c.toNat ∧ c.toNat ≤ 90
  · rw [if_pos h]
    have ht : (Char.ofNat (c.toNat + 32)).toNat = c.toNat + 32 :=
      toNat_ofNat_valid (Or.inl (by omega))
    rw [if_neg (by rw [ht]; omega)]
  · rw [if_neg h, if_neg h]

theorem mapLower_idem (l : List Char) : (l.map lowerCh).map lowerCh = l.map lowerCh := by
  induction l with
  | nil => rfl
  | cons c cs ih => simp only [List.map_cons, ih, lowerCh_idem]

theorem pyLower_idem (s : String) : pyLower (pyLower s) = pyLower s :=
  congrArg String.mk (mapLower_idem s.data)

theorem lower_meds_idem (ms : List MedicationChange) :
    lower_meds (lower_meds ms) = lower_meds ms := by
  induction ms with
  | nil => rfl
  | cons m rest ih =>
    simp only [lower_meds, List.map_cons] at *
    exact congrArg₂ List.cons (by simp [pyLower_idem]) ih

theorem optList_sublist (b : Bool) (a : RuleAlert) : (optList b a).Sublist [a] := by
  cases b <;> simp [optList]

/-- The fixed list of the six alerts in rule order. -/
def allAlerts : List RuleAlert :=
  [afAlert, fuAlert, statinAlert, hfAlert, redflagAlert, daptAlert]

theorem run_rules_sublist (r : ExtractionResult) : (run_rules r).Sublist allAlerts := by
  rw [run_rules_struct]
  exact ((((((optList_sublist _ _).append (optList_sublist _ _)).append
    (optList_sublist _ _)).append (optList_sublist _ _)).append
    (optList_sublist _ _)).append (optList_sublist _ _))

/-! ### Concrete records used by the scenario claims and witnesses -/

/-- A record satisfying none of the six triggers (everything empty). -/
def recNone : ExtractionResult :=
  { diagnoses := [], procedures := [], medication_changes := []
    follow_up := [], pending_tests := [], red_flags := [] }

/-- A record satisfying all six triggers. -/
def recAll : ExtractionResult :=
  { diagnoses := ["af mi hf"], procedures := ["pci"]
    medication_changes := [{ name := "Apixaban", action := "stop", dose := none }]
    follow_up := [], pending_tests := [], red_flags := [] }

/-- Scenario A of the spec: AF diagnosis plus a stopped apixaban. -/
def recA : ExtractionResult :=
  { diagnoses := ["Atrial Fibrillation"], procedures := []
    medication_changes := [{ name := "Apixaban", action := "stop", dose := none }]
    follow_up := [], pending_tests := [], red_flags := [] }

/-- The substring-matching edge case: diagnoses `["staff"]`. -/
def recStaff : ExtractionResult :=
  { diagnoses := ["staff"], procedures := []
    medication_changes := [{ name := "apixaban", action := "stop", dose := none }]
    follow_up := [], pending_tests := [], red_flags := [] }

/-! ## Claim theorems for the rule engine -/

/-- C1: for every well-formed `ExtractionResult`, `run_rules` returns the
empty list when none of the six trigger conditions holds, and exactly the
six alerts in the fixed order AF_AC_STOPPED, MI_NO_CARDIO_FU,
MI_NO_STATIN, HF_INCOMPLETE_THERAPY, NO_REDFLAG_ADVICE, PCI_NO_DAPT_PLAN
when all six hold; moreover the result is always the order-preserving
concatenation of the six rules' independent contributions, so no rule's
firing suppresses another rule's evaluation. -/
theorem rule_independence (r : ExtractionResult) :
    (trig1 r = false ∧ trig2 r = false ∧ trig3 r = false ∧ trig4 r = false ∧
      trig5 r = false ∧ trig6 r = false → run_rules r = []) ∧
    (trig1 r = true ∧ trig2 r = true ∧ trig3 r = true ∧ trig4 r = true ∧
      trig5 r = true ∧ trig6 r = true →
      (run_rules r).map RuleAlert.code =
        ["AF_AC_STOPPED", "MI_NO_CARDIO_FU", "MI_NO_STATIN",
         "HF_INCOMPLETE_THERAPY", "NO_REDFLAG_ADVICE", "PCI_NO_DAPT_PLAN"]) ∧
    run_rules r =
      optList (trig1 r) afAlert ++ optList (trig2 r) fuAlert ++
      optList (trig3 r) statinAlert ++ optList (trig4 r) hfAlert ++
      optList (trig5 r) redflagAlert ++ optList (trig6 r) daptAlert := by
  refine ⟨?_, ?_, run_rules_struct r⟩
  · rintro ⟨h1, h2, h3, h4, h5, h6⟩
    rw [run_rules_struct, h1, h2, h3, h4, h5, h6]
    rfl
  · rintro ⟨h1, h2, h3, h4, h5, h6⟩
    rw [run_rules_struct, h1, h2, h3, h4, h5, h6]
    rfl

/-- Witness for C1 at concrete records: the all-empty record yields no
alerts; a record triggering all six rules yields the six codes in order. -/
theorem rule_independence_witness :
    run_rules recNone = [] ∧
    (run_rules recAll).map RuleAlert.code =
      ["AF_AC_STOPPED", "MI_NO_CARDIO_FU", "MI_NO_STATIN",
       "HF_INCOMPLETE_THERAPY", "NO_REDFLAG_ADVICE", "PCI_NO_DAPT_PLAN"] :=
  ⟨(rule_independence recNone).1 (by decide),
   (rule_independence recAll).2.1 (by decide)⟩

/-- C6: Scenario A — diagnoses `["Atrial Fibrillation"]` with a stopped
`"Apixaban"` yields exactly one alert, whose code is `AF_AC_STOPPED` and
whose severity is `critical`. -/
theorem scenarioA_af_alert :
    run_rules recA = [afAlert] ∧
    afAlert.code = "AF_AC_STOPPED" ∧ afAlert.severity = "critical" := by
  refine ⟨by decide, rfl, rfl⟩

/-- C7: diagnosis matching is literal substring containment, not
token-boundary matching: `["staff"]` satisfies rule 1's diagnosis
condition via the `"af"` substring, even though `"atrial fibrillation"`
does not occur, so with a stopped anticoagulant the AF_AC_STOPPED alert
fires. -/
theorem staff_substring_triggers_af :
    strHas (diagText recStaff) "af" = true ∧
    strHas (diagText recStaff) "atrial fibrillation" = false ∧
    trig1 recStaff = true ∧
    run_rules recStaff = [afAlert] ∧ afAlert.code = "AF_AC_STOPPED" := by
  refine ⟨by decide, by decide, by decide, by decide, rfl⟩

/-- C9: the alert list always has length at most six, its codes are
pairwise distinct, and every alert carries the fixed severity associated
with its code. -/
theorem alerts_invariants (r : ExtractionResult) :
    (run_rules r).length ≤ 6 ∧
    ((run_rules r).map RuleAlert.code).Nodup ∧
    ∀ a ∈ run_rules r, (a.code, a.severity) ∈
      [("AF_AC_STOPPED", "critical"), ("MI_NO_CARDIO_FU", "warning"),
       ("MI_NO_STATIN", "warning"), ("HF_INCOMPLETE_THERAPY", "warning"),
       ("NO_REDFLAG_ADVICE", "info"), ("PCI_NO_DAPT_PLAN", "info")] := by
  have hsub := run_rules_sublist r
  refine ⟨?_, ?_, ?_⟩
  · have := hsub.length_le
    simpa [allAlerts] using this
  · exact List.Nodup.sublist (hsub.map RuleAlert.code) (by decide)
  · intro a ha
    have : a ∈ allAlerts := hsub.subset ha
    fin_cases this <;> decide

/-- Witness for C9, instantiating the membership implication at the
all-triggers record and the AF alert. -/
theorem alerts_invariants_witness :
    (afAlert.code, afAlert.severity) ∈
      [("AF_AC_STOPPED", "critical"), ("MI_NO_CARDIO_FU", "warning"),
       ("MI_NO_STATIN", "warning"), ("HF_INCOMPLETE_THERAPY", "warning"),
       ("NO_REDFLAG_ADVICE", "info"), ("PCI_NO_DAPT_PLAN", "info")] :=
  (alerts_invariants recAll).2.2 afAlert (by decide)

/-- The state of the input record after `run_rules` returns: `_lower_meds`
mutates each `medication_changes` item's `name` in place (lower-casing it);
no other field of the record is assigned anywhere in `run_rules`. -/
def run_rules_post (r : ExtractionResult) : ExtractionResult :=
  { r with medication_changes := lower_meds r.medication_changes }

theorem trigs_post (r : ExtractionResult) :
    trig1 (run_rules_post r) = trig1 r ∧ trig2 (run_rules_post r) = trig2 r ∧
    trig3 (run_rules_post r) = trig3 r ∧ trig4 (run_rules_post r) = trig4 r ∧
    trig5 (run_rules_post r) = trig5 r ∧ trig6 (run_rules_post r) = trig6 r := by
  refine ⟨?_, ?_, ?_, ?_, ?_, ?_⟩ <;>
    simp [trig1, trig2, trig3, trig4, trig5, trig6, miTrig, diagText, procText,
      run_rules_post, lower_meds_idem]

/-- C8: the only change `run_rules` makes to its input record is
lower-casing each medication name; all other fields and each medication's
action and dose are unchanged, the normalization is idempotent, and
re-running the evaluation on the mutated record yields the same alerts. -/
theorem mutation_frame (r : ExtractionResult) :
    (run_rules_post r).diagnoses = r.diagnoses ∧
    (run_rules_post r).procedures = r.procedures ∧
    (run_rules_post r).follow_up = r.follow_up ∧
    (run_rules_post r).pending_tests = r.pending_tests ∧
    (run_rules_post r).red_flags = r.red_flags ∧
    (run_rules_post r).medication_changes =
      r.medication_changes.map (fun m => { m with name := pyLower m.name }) ∧
    run_rules_post (run_rules_post r) = run_rules_post r ∧
    run_rules (run_rules_post r) = run_rules r := by
  obtain ⟨h1, h2, h3, h4, h5, h6⟩ := trigs_post r
  refine ⟨rfl, rfl, rfl, rfl, rfl, rfl, ?_, ?_⟩
  · simp [run_rules_post, lower_meds_idem]
  · rw [run_rules_struct, run_rules_struct, h1, h2, h3, h4, h5, h6]

/-! ## Extraction contract (`app/services/extractor.py`, lines 119–136)

The tail of `extract_structured` after the LLM call and fence stripping:
`json.loads` the content (failure raises a `ValueError` carrying the raw
content — the `SchemaError` of the design document), `setdefault` each of
the six expected keys to `[]`, then validate into `ExtractionResult`
(pydantic; a present field of the wrong shape raises a validation error).
JSON values are modelled by `Jval`; parsed objects are association lists
(keys produced by `json.loads` are unique, so first-match lookup is
faithful). -/

/-- A parsed JSON value. -/
inductive Jval where
  | null
  | bool (b : Bool)
  | num (n : Int)
  | str (s : String)
  | arr (xs : List Jval)
  | obj (kvs : List (String × Jval))
  deriving Repr

/-- Dictionary lookup. -/
def jget : List (String × Jval) → String → Option Jval
  | [], _ => none
  | (k, v) :: rest, key => if k == key then some v else jget rest key

/-- Is the value a JSON array? -/
def jIsArr : Jval → Bool
  | .arr _ => true
  | _ => false

/-- The six expected list fields, in the order the code defaults them. -/
def EXPECTED_KEYS : List String :=
  ["diagnoses", "procedures", "medication_changes", "follow_up",
   "pending_tests", "red_flags"]

/-- `data.setdefault(key, [])`: insert an empty list when the key is absent. -/
def setdefault (data : List (String × Jval)) (key : String) : List (String × Jval) :=
  match jget data key with
  | some _ => data
  | none => data ++ [(key, Jval.arr [])]

/-- The `setdefault` loop over the six expected keys. -/
def setdefaults (data : List (String × Jval)) : List (String × Jval) :=
  EXPECTED_KEYS.foldl setdefault data

/-- The five values pydantic's `Literal` allows for `action`. -/
def ALLOWED_ACTIONS : List String := ["start", "stop", "increase", "decrease", "continue"]

def asStr : Jval → Option String
  | .str s => some s
  | _ => none

/-- A `List[str]` field: must be an array of strings. -/
def asStrList : Jval → Option (List String)
  | .arr xs => xs.mapM asStr
  | _ => none

/-- An `Optional[str]` field: absent or null defaults to `none`. -/
def asOptStr : Option Jval → Option (Option String)
  | none => some none
  | some .null => some none
  | some (.str s) => some (some s)
  | some _ => none

/-- Validation of one `MedicationChange` item: `name` a string, `action`
one of the five allowed values, `dose` optional. -/
def asMed : Jval → Option MedicationChange
  | .obj kvs =>
    match jget kvs "name", jget kvs "action" with
    | some (.str n), some (.str a) =>
      if ALLOWED_ACTIONS.contains a then
        (asOptStr (jget kvs "dose")).map fun d => { name := n, action := a, dose := d }
      else none
    | _, _ => none
  | _ => none

/-- Validation of one `FollowUpItem`: `type` and `when` strings,
`location` optional. -/
def asFU : Jval → Option FollowUpItem
  | .obj kvs =>
    match jget kvs "type", jget kvs "when" with
    | some (.str t), some (.str w) =>
      (asOptStr (jget kvs "location")).map fun l => { type := t, when := w, location := l }
    | _, _ => none
  | _ => none

def asMedList : Jval → Option (List MedicationChange)
  | .arr xs => xs.mapM asMed
  | _ => none

def asFUList : Jval → Option (List FollowUpItem)
  | .arr xs => xs.mapM asFU
  | _ => none

/-- The fatal error of the extraction contract: either `json.loads`
rejected the content (the code raises a `ValueError` whose message embeds
the raw content), or validation of a field failed (pydantic reports the
offending field). -/
inductive SchemaError where
  | parseError (raw : String)
  | validationError (field : String)
  deriving DecidableEq, Repr

/-- Extract and validate one field of the record. -/
def fieldAs {α} (f : Jval → Option α) (data : List (String × Jval)) (key : String) :
    Except SchemaError α :=
  match jget data key with
  | none => .error (.validationError key)
  | some v =>
    match f v with
    | some x => .ok x
    | none => .error (.validationError key)

/-- `ExtractionResult(**data)`: validate the six fields (extra keys are
ignored, pydantic's default). -/
def validateER (data : List (String × Jval)) : Except SchemaError ExtractionResult :=
  match fieldAs asStrList data "diagnoses" with
  | .error e => .error e
  | .ok ds =>
    match fieldAs asStrList data "procedures" with
    | .error e => .error e
    | .ok ps =>
      match fieldAs asMedList data "medication_changes" with
      | .error e => .error e
      | .ok ms =>
        match fieldAs asFUList data "follow_up" with
        | .error e => .error e
        | .ok fu =>
          match fieldAs asStrList data "pending_tests" with
          | .error e => .error e
          | .ok pt =>
            match fieldAs asStrList data "red_flags" with
            | .error e => .error e
            | .ok rf =>
              .ok { diagnoses := ds, procedures := ps, medication_changes := ms
                    follow_up := fu, pending_tests := pt, red_flags := rf }

/-- The normalization tail of `extract_structured`: JSON parsing is
abstracted at its boundary — `parsed = none` models a content string
`json.loads` rejects (the code raises carrying the raw content);
`some v` models the parsed value.  A parsed value whose top level is not
an object fails (the code's `data.setdefault` call raises); an object is
default-filled on the six keys and validated. -/
def extract_structured_post (content : String) (parsed : Option Jval) :
    Except SchemaError ExtractionResult :=
  match parsed with
  | none => .error (.parseError content)
  | some (.obj data) => validateER (setdefaults data)
  | some _ => .error (.validationError "<root>")

/-- Shape requirement on one present field, per the six-field schema:
`medication_changes` a list of medication objects, `follow_up` a list of
follow-up objects, the other four lists of strings. -/
def fieldOk (key : String) (v : Jval) : Bool :=
  if key == "medication_changes" then (asMedList v).isSome
  else if key == "follow_up" then (asFUList v).isSome
  else (asStrList v).isSome

/-- One key of an object is either absent or well-shaped. -/
def presentOk (data : List (String × Jval)) (key : String) : Bool :=
  match jget data key with
  | none => true
  | some v => fieldOk key v

/-- A parsed response is well-shaped when it is an object whose present
expected keys all hold lists of the right shape (missing keys are fine). -/
def WellShaped (parsed : Option Jval) : Bool :=
  match parsed with
  | some (.obj data) => EXPECTED_KEYS.all (presentOk data)
  | _ => false

/-! ### Supporting lemmas for the extraction contract -/

/-- The field value validation sees after default-filling. -/
def fieldAfter (data : List (String × Jval)) (k : String) : Jval :=
  (jget data k).getD (Jval.arr [])

theorem jget_append (l1 l2 : List (String × Jval)) (k : String) :
    jget (l1 ++ l2) k = match jget l1 k with | some v => some v | none => jget l2 k := by
  induction l1 with
  | nil => simp [jget]
  | cons p rest ih =>
    obtain ⟨k', v⟩ := p
    by_cases h : (k' == k) = true <;> simp [jget, h, ih]

theorem jget_setdefault_same (data : List (String × Jval)) (k : String) :
    jget (setdefault data k) k = some (fieldAfter data k) := by
  unfold setdefault fieldAfter
  cases h : jget data k with
  | some v => simp [h]
  | none => simp [h, jget_append, jget]

theorem jget_setdefault_other (k' k : String) (data : List (String × Jval))
    (h : (k' == k) = false) : jget (setdefault data k') k = jget data k := by
  unfold setdefault
  cases h2 : jget data k' with
  | some v => rfl
  | none =>
    rw [jget_append]
    cases h3 : jget data k <;> simp [jget, h]

theorem setdefaults_eq (data : List (String × Jval)) :
    setdefaults data =
      setdefault (setdefault (setdefault (setdefault (setdefault (setdefault data
        "diagnoses") "procedures") "medication_changes") "follow_up")
        "pending_tests") "red_flags" := rfl

theorem jget_sd_diagnoses (data : List (String × Jval)) :
    jget (setdefaults data) "diagnoses" = some (fieldAfter data "diagnoses") := by
  rw [setdefaults_eq,
    jget_setdefault_other "red_flags" "diagnoses" _ (by decide),
    jget_setdefault_other "pending_tests" "diagnoses" _ (by decide),
    jget_setdefault_other "follow_up" "diagnoses" _ (by decide),
    jget_setdefault_other "medication_changes" "diagnoses" _ (by decide),
    jget_setdefault_other "procedures" "diagnoses" _ (by decide),
    jget_setdefault_same]

theorem jget_sd_procedures (data : List (String × Jval)) :
    jget (setdefaults data) "procedures" = some (fieldAfter data "procedures") := by
  rw [setdefaults_eq,
    jget_setdefault_other "red_flags" "procedures" _ (by decide),
    jget_setdefault_other "pending_tests" "procedures" _ (by decide),
    jget_setdefault_other "follow_up" "procedures" _ (by decide),
    jget_setdefault_other "medication_changes" "procedures" _ (by decide),
    jget_setdefault_same]
  unfold fieldAfter
  rw [jget_setdefault_other "diagnoses" "procedures" _ (by decide)]

theorem jget_sd_medication_changes (data : List (String × Jval)) :
    jget (setdefaults data) "medication_changes" =
      some (fieldAfter data "medication_changes") := by
  rw [setdefaults_eq,
    jget_setdefault_other "red_flags" "medication_changes" _ (by decide),
    jget_setdefault_other "pending_tests" "medication_changes" _ (by decide),
    jget_setdefault_other "follow_up" "medication_changes" _ (by decide),
    jget_setdefault_same]
  unfold fieldAfter
  rw [jget_setdefault_other "procedures" "medication_changes" _ (by decide),
    jget_setdefault_other "diagnoses" "medication_changes" _ (by decide)]

theorem jget_sd_follow_up (data : List (String × Jval)) :
    jget (setdefaults data) "follow_up" = some (fieldAfter data "follow_up") := by
  rw [setdefaults_eq,
    jget_setdefault_other "red_flags" "follow_up" _ (by decide),
    jget_setdefault_other "pending_tests" "follow_up" _ (by decide),
    jget_setdefault_same]
  unfold fieldAfter
  rw [jget_setdefault_other "medication_changes" "follow_up" _ (by decide),
    jget_setdefault_other "procedures" "follow_up" _ (by decide),
    jget_setdefault_other "diagnoses" "follow_up" _ (by decide)]

theorem jget_sd_pending_tests (data : List (String × Jval)) :
    jget (setdefaults data) "pending_tests" = some (fieldAfter data "pending_tests") := by
  rw [setdefaults_eq,
    jget_setdefault_other "red_flags" "pending_tests" _ (by decide),
    jget_setdefault_same]
  unfold fieldAfter
  rw [jget_setdefault_other "follow_up" "pending_tests" _ (by decide),
    jget_setdefault_other "medication_changes" "pending_tests" _ (by decide),
    jget_setdefault_other "procedures" "pending_tests" _ (by decide),
    jget_setdefault_other "diagnoses" "pending_tests" _ (by decide)]

theorem jget_sd_red_flags (data : List (String × Jval)) :
    jget (setdefaults data) "red_flags" = some (fieldAfter data "red_flags") := by
  rw [setdefaults_eq, jget_setdefault_same]
  unfold fieldAfter
  rw [jget_setdefault_other "pending_tests" "red_flags" _ (by decide),
    jget_setdefault_other "follow_up" "red_flags" _ (by decide),
    jget_setdefault_other "medication_changes" "red_flags" _ (by decide),
    jget_setdefault_other "procedures" "red_flags" _ (by decide),
    jget_setdefault_other "diagnoses" "red_flags" _ (by decide)]

theorem presentOk_eq {α : Type} (data : List (String × Jval)) (k : String)
    (f : Jval → Option α) (hf : ∀ v, fieldOk k v = (f v).isSome)
    (hd : (f (Jval.arr [])).isSome = true) :
    presentOk data k = (f (fieldAfter data k)).isSome := by
  unfold presentOk fieldAfter
  cases h : jget data k
  · simpa using hd.symm
  · simp [hf]

/-- Validation after default-filling succeeds when all six field values
validate, and yields exactly the validated record. -/
theorem validateER_sd_ok (data : List (String × Jval))
    {ds ps : List String} {ms : List MedicationChange} {fu : List FollowUpItem}
    {pt rf : List String}
    (h1 : asStrList (fieldAfter data "diagnoses") = some ds)
    (h2 : asStrList (fieldAfter data "procedures") = some ps)
    (h3 : asMedList (fieldAfter data "medication_changes") = some ms)
    (h4 : asFUList (fieldAfter data "follow_up") = some fu)
    (h5 : asStrList (fieldAfter data "pending_tests") = some pt)
    (h6 : asStrList (fieldAfter data "red_flags") = some rf) :
    validateER (setdefaults data) =
      .ok { diagnoses := ds, procedures := ps, medication_changes := ms
            follow_up := fu, pending_tests := pt, red_flags := rf } := by
  unfold validateER fieldAs
  rw [jget_sd_diagnoses, jget_sd_procedures, jget_sd_medication_changes,
    jget_sd_follow_up, jget_sd_pending_tests, jget_sd_red_flags]
  simp only [h1, h2, h3, h4, h5, h6]

/-- The executable normalization succeeds exactly on well-shaped objects. -/
theorem validateER_sd_isOk (data : List (String × Jval)) :
    (validateER (setdefaults data)).isOk = WellShaped (some (.obj data)) := by
  have e1 := presentOk_eq data "diagnoses" asStrList (fun _ => rfl) rfl
  have e2 := presentOk_eq data "procedures" asStrList (fun _ => rfl) rfl
  have e3 := presentOk_eq data "medication_changes" asMedList (fun _ => rfl) rfl
  have e4 := presentOk_eq data "follow_up" asFUList (fun _ => rfl) rfl
  have e5 := presentOk_eq data "pending_tests" asStrList (fun _ => rfl) rfl
  have e6 := presentOk_eq data "red_flags" asStrList (fun _ => rfl) rfl
  unfold WellShaped EXPECTED_KEYS validateER fieldAs
  rw [jget_sd_diagnoses, jget_sd_procedures, jget_sd_medication_changes,
    jget_sd_follow_up, jget_sd_pending_tests, jget_sd_red_flags]
  simp only [List.all_cons, List.all_nil, e1, e2, e3, e4, e5, e6, Bool.and_true]
  cases h1 : asStrList (fieldAfter data "diagnoses") <;>
    cases h2 : asStrList (fieldAfter data "procedures") <;>
      cases h3 : asMedList (fieldAfter data "medication_changes") <;>
        cases h4 : asFUList (fieldAfter data "follow_up") <;>
          cases h5 : asStrList (fieldAfter data "pending_tests") <;>
            cases h6 : asStrList (fieldAfter data "red_flags") <;>
              simp [Except.isOk, Except.toBool]

/-- Shared success lemma: an object whose present expected fields are
well-shaped normalizes successfully, and every absent field comes out as
the empty list. -/
theorem post_ok_of_wellShaped (content : String) (data : List (String × Jval))
    (hvalid : EXPECTED_KEYS.all (presentOk data) = true) :
    ∃ res, extract_structured_post content (some (.obj data)) = .ok res ∧
      (jget data "diagnoses" = none → res.diagnoses = []) ∧
      (jget data "procedures" = none → res.procedures = []) ∧
      (jget data "medication_changes" = none → res.medication_changes = []) ∧
      (jget data "follow_up" = none → res.follow_up = []) ∧
      (jget data "pending_tests" = none → res.pending_tests = []) ∧
      (jget data "red_flags" = none → res.red_flags = []) := by
  have hv : ∀ k ∈ EXPECTED_KEYS, presentOk data k = true := by
    intro k hk
    exact List.all_eq_true.mp hvalid k hk
  have p1 := hv "diagnoses" (by decide)
  have p2 := hv "procedures" (by decide)
  have p3 := hv "medication_changes" (by decide)
  have p4 := hv "follow_up" (by decide)
  have p5 := hv "pending_tests" (by decide)
  have p6 := hv "red_flags" (by decide)
  rw [presentOk_eq data "diagnoses" asStrList (fun _ => rfl) rfl] at p1
  rw [presentOk_eq data "procedures" asStrList (fun _ => rfl) rfl] at p2
  rw [presentOk_eq data "medication_changes" asMedList (fun _ => rfl) rfl] at p3
  rw [presentOk_eq data "follow_up" asFUList (fun _ => rfl) rfl] at p4
  rw [presentOk_eq data "pending_tests" asStrList (fun _ => rfl) rfl] at p5
  rw [presentOk_eq data "red_flags" asStrList (fun _ => rfl) rfl] at p6
  obtain ⟨ds, hds⟩ := Option.isSome_iff_exists.mp p1
  obtain ⟨ps, hps⟩ := Option.isSome_iff_exists.mp p2
  obtain ⟨ms, hms⟩ := Option.isSome_iff_exists.mp p3
  obtain ⟨fu, hfu⟩ := Option.isSome_iff_exists.mp p4
  obtain ⟨pt, hpt⟩ := Option.isSome_iff_exists.mp p5
  obtain ⟨rf, hrf⟩ := Option.isSome_iff_exists.mp p6
  refine ⟨_, validateER_sd_ok data hds hps hms hfu hpt hrf, ?_, ?_, ?_, ?_, ?_, ?_⟩ <;>
    intro habs
  · simp only [fieldAfter, habs, Option.getD] at hds
    exact (Option.some.inj hds).symm
  · simp only [fieldAfter, habs, Option.getD] at hps
    exact (Option.some.inj hps).symm
  · simp only [fieldAfter, habs, Option.getD] at hms
    exact (Option.some.inj hms).symm
  · simp only [fieldAfter, habs, Option.getD] at hfu
    exact (Option.some.inj hfu).symm
  · simp only [fieldAfter, habs, Option.getD] at hpt
    exact (Option.some.inj hpt).symm
  · simp only [fieldAfter, habs, Option.getD] at hrf
    exact (Option.some.inj hrf).symm

theorem fieldOk_false_of_not_arr (k : String) (v : Jval) (hv : jIsArr v = false) :
    fieldOk k v = false := by
  cases v <;> simp [jIsArr] at hv ⊢ <;>
    simp [fieldOk, asMedList, asFUList, asStrList]

/-! ## Claim theorems for the extraction contract -/

/-- C2: for every parseable structured input whose present expected fields
are well-shaped, normalization succeeds whatever subset of the six list
fields is missing, and every omitted field of the resulting record is the
empty list. -/
theorem defaults_total (content : String) (data : List (String × Jval))
    (hvalid : EXPECTED_KEYS.all (presentOk data) = true) :
    ∃ res, extract_structured_post content (some (.obj data)) = .ok res ∧
      (jget data "diagnoses" = none → res.diagnoses = []) ∧
      (jget data "procedures" = none → res.procedures = []) ∧
      (jget data "medication_changes" = none → res.medication_changes = []) ∧
      (jget data "follow_up" = none → res.follow_up = []) ∧
      (jget data "pending_tests" = none → res.pending_tests = []) ∧
      (jget data "red_flags" = none → res.red_flags = []) :=
  post_ok_of_wellShaped content data hvalid

/-- Witness for C2: an object carrying only `procedures` normalizes
successfully and the five omitted fields default to empty lists. -/
theorem defaults_total_witness :
    ∃ res, extract_structured_post ""
        (some (.obj [("procedures", Jval.arr [Jval.str "PCI"])])) = .ok res ∧
      (jget [("procedures", Jval.arr [Jval.str "PCI"])] "diagnoses" = none →
        res.diagnoses = []) ∧
      (jget [("procedures", Jval.arr [Jval.str "PCI"])] "procedures" = none →
        res.procedures = []) ∧
      (jget [("procedures", Jval.arr [Jval.str "PCI"])] "medication_changes" = none →
        res.medication_changes = []) ∧
      (jget [("procedures", Jval.arr [Jval.str "PCI"])] "follow_up" = none →
        res.follow_up = []) ∧
      (jget [("procedures", Jval.arr [Jval.str "PCI"])] "pending_tests" = none →
        res.pending_tests = []) ∧
      (jget [("procedures", Jval.arr [Jval.str "PCI"])] "red_flags" = none →
        res.red_flags = []) :=
  defaults_total "" [("procedures", Jval.arr [Jval.str "PCI"])] (by decide)

/-- C3: normalization of a raw response fails exactly when the text is
not well-formed structured data (modelled by `parsed = none`) or a
present field has the wrong shape; on a parse failure the error is the
fatal `SchemaError` carrying the raw offending text, and no default
record is ever substituted (the success indicator equals well-shapedness,
so a failure can never yield an `ok` record). -/
theorem normalize_fails_iff (content : String) (parsed : Option Jval) :
    (extract_structured_post content parsed).isOk = WellShaped parsed ∧
    (parsed = none →
      extract_structured_post content parsed = .error (.parseError content)) := by
  constructor
  · cases parsed with
    | none => rfl
    | some v => cases v <;> first | rfl | exact validateER_sd_isOk _
  · rintro rfl
    rfl

/-- Witness for C3: a concrete unparseable response fails with the raw
text attached, and a concrete ill-shaped object is rejected. -/
theorem normalize_fails_iff_witness :
    extract_structured_post "not json at all" none =
      .error (.parseError "not json at all") ∧
    (extract_structured_post "x" (some (.obj [("diagnoses", Jval.num 3)]))).isOk = false :=
  ⟨(normalize_fails_iff "not json at all" none).2 rfl,
   (normalize_fails_iff "x" (some (.obj [("diagnoses", Jval.num 3)]))).1.trans (by decide)⟩

/-- C10: default-filling applies only to absent keys — one of the six
fields bound to null (or any non-list value) makes normalization fail
rather than being replaced by an empty list, whereas the same key missing
(with the present fields well-shaped) succeeds; so a null-valued field is
an error state, distinct from a missing field. -/
theorem null_field_vs_missing (content : String) (k : String) (hk : k ∈ EXPECTED_KEYS) :
    (∀ data v, jget data k = some v → jIsArr v = false →
      ∃ e, extract_structured_post content (some (.obj data)) = .error e) ∧
    (∀ data, jget data k = none → EXPECTED_KEYS.all (presentOk data) = true →
      ∃ res, extract_structured_post content (some (.obj data)) = .ok res) := by
  constructor
  · intro data v hget harr
    have hpk : presentOk data k = false := by
      unfold presentOk
      rw [hget]
      exact fieldOk_false_of_not_arr k v harr
    have hws : WellShaped (some (.obj data)) = false := by
      show EXPECTED_KEYS.all (presentOk data) = false
      cases hall : EXPECTED_KEYS.all (presentOk data) with
      | false => rfl
      | true => rw [List.all_eq_true.mp hall k hk] at hpk; exact absurd hpk (by simp)
    have hok : (extract_structured_post content (some (.obj data))).isOk = false := by
      show (validateER (setdefaults data)).isOk = false
      rw [validateER_sd_isOk, hws]
    cases hres : extract_structured_post content (some (.obj data)) with
    | error e => exact ⟨e, rfl⟩
    | ok r => rw [hres] at hok; exact absurd hok (by simp [Except.isOk, Except.toBool])
  · intro data _ hvalid
    obtain ⟨res, hres, -⟩ := post_ok_of_wellShaped content data hvalid
    exact ⟨res, hres⟩

/-- Witness for C10 at the `diagnoses` key: a null-valued `diagnoses`
fails; a missing `diagnoses` (empty object) succeeds. -/
theorem null_field_vs_missing_witness :
    (∃ e, extract_structured_post "x"
        (some (.obj [("diagnoses", Jval.null)])) = .error e) ∧
    (∃ res, extract_structured_post "x" (some (.obj [])) = .ok res) :=
  ⟨(null_field_vs_missing "x" "diagnoses" (by decide)).1
      [("diagnoses", Jval.null)] Jval.null rfl rfl,
   (null_field_vs_missing "x" "diagnoses" (by decide)).2 [] rfl (by decide)⟩

/-! ## De-identification scrubber (`deidentify_text`, extractor.py 13–33)

The five `re.sub` calls are modelled by pattern-specific scanners over
`List Char` with Python's `re` semantics: left-to-right scan, leftmost
non-overlapping matches, greedy quantifiers with backtracking, `\b`
word-boundary context taken from the original string.  Character classes
are modelled on the ASCII range (`\d` = `0-9`, `\s` = ASCII whitespace,
`\w` = alphanumeric or underscore), which covers every pattern used. -/

/-- Python `\d` (ASCII). -/
def isDigitCh (c : Char) : Bool := c.isDigit

/-- Python `\s` (ASCII whitespace). -/
def isSpaceCh (c : Char) : Bool :=
  c == ' ' || c == '\t' || c == '\n' || c == '\r' || c == '\x0b' || c == '\x0c'

/-- Python `\w` (ASCII). -/
def isWordCh (c : Char) : Bool := c.isAlphanum || c == '_'

/-- The class `[A-Z]` (upper-case only: the postcode pattern has no
case-insensitivity flag). -/
def isUpperCh (c : Char) : Bool := 'A' ≤ c && c ≤ 'Z'

/-- `noWord side` holds when the character on one side of a position is
absent or not a word character; `\b` next to a word character of the
pattern holds exactly in that case. -/
def noWord : Option Char → Bool
  | none => true
  | some c => !isWordCh c

/-- Case-insensitive literal prefix match (pattern given lower-case);
returns the matched span and the rest. -/
def leadCI : List Char → List Char → Option (List Char × List Char)
  | [], l => some ([], l)
  | _ :: _, [] => none
  | p :: ps, c :: cs =>
    if lowerCh c == p then
      match leadCI ps cs with
      | some (m, r) => some (c :: m, r)
      | none => none
    else none

/-- Greedy maximal run of a character class (no backtracking is needed at
the call sites: each use is followed either by nothing, by a class the
run's own class excludes, or by the end of the pattern). -/
def spanP (p : Char → Bool) : List Char → List Char × List Char
  | [] => ([], [])
  | c :: cs =>
    if p c then
      let (m, r) := spanP p cs
      (c :: m, r)
    else ([], c :: cs)

/-- Exactly `n` characters of a class. -/
def leadN (p : Char → Bool) : Nat → List Char → Option (List Char × List Char)
  | 0, l => some ([], l)
  | _ + 1, [] => none
  | n + 1, c :: cs =>
    if p c then
      match leadN p n cs with
      | some (m, r) => some (c :: m, r)
      | none => none
    else none

/-- A greedy optional character of a class (`X?`): try consuming it and
running the continuation, fall back to the continuation alone. -/
def optCls (p : Char → Bool) (k : List Char → Option (List Char × List Char)) :
    List Char → Option (List Char × List Char)
  | [] => k []
  | c :: cs =>
    if p c then
      match k cs with
      | some (m, r) => some (c :: m, r)
      | none => k (c :: cs)
    else k (c :: cs)

/-- `(?i)name:\s*.*` at the current position. -/
def tryName (l : List Char) : Option (List Char × List Char) :=
  match leadCI "name:".data l with
  | none => none
  | some (m1, r1) =>
    let (m2, r2) := spanP isSpaceCh r1
    let (m3, r3) := spanP (fun c => !(c == '\n')) r2
    some (m1 ++ m2 ++ m3, r3)

/-- `(?i)dob:\s*.*` at the current position. -/
def tryDob (l : List Char) : Option (List Char × List Char) :=
  match leadCI "dob:".data l with
  | none => none
  | some (m1, r1) =>
    let (m2, r2) := spanP isSpaceCh r1
    let (m3, r3) := spanP (fun c => !(c == '\n')) r2
    some (m1 ++ m2 ++ m3, r3)

/-- Tail `\d{4}\b` of the NHS-number pattern. -/
def nhsEnd (l : List Char) : Option (List Char × List Char) :=
  match leadN isDigitCh 4 l with
  | none => none
  | some (m, r) => if noWord r.head? then some (m, r) else none

/-- Middle `\d{3}\s?` plus the tail of the NHS-number pattern. -/
def nhsMid (r : List Char) : Option (List Char × List Char) :=
  match leadN isDigitCh 3 r with
  | none => none
  | some (d2, r2) =>
    match optCls isSpaceCh nhsEnd r2 with
    | none => none
    | some (m3, r3) => some (d2 ++ m3, r3)

/-- `\b\d{3}\s?\d{3}\s?\d{4}\b` at the current position (`prev` is the
character before it). -/
def tryNHS (prev : Option Char) (l : List Char) : Option (List Char × List Char) :=
  if noWord prev then
    match leadN isDigitCh 3 l with
    | none => none
    | some (d1, r1) =>
      match optCls isSpaceCh nhsMid r1 with
      | none => none
      | some (m2, r2) => some (d1 ++ m2, r2)
  else none

/-- Tail `\d[A-Z]{2}\b` of the postcode pattern. -/
def pcEnd (l : List Char) : Option (List Char × List Char) :=
  match leadN isDigitCh 1 l with
  | none => none
  | some (d, r) =>
    match leadN isUpperCh 2 r with
    | none => none
    | some (u, r2) => if noWord r2.head? then some (d ++ u, r2) else none

/-- `\s*` plus the tail `\d[A-Z]{2}\b` of the postcode pattern. -/
def pcMid (r : List Char) : Option (List Char × List Char) :=
  let (ws, r2) := spanP isSpaceCh r
  match pcEnd r2 with
  | none => none
  | some (m, r3) => some (ws ++ m, r3)

/-- Middle `\d[A-Z0-9]?\s*` plus the tail, after the leading letters. -/
def pcAfterLetters (l : List Char) : Option (List Char × List Char) :=
  match leadN isDigitCh 1 l with
  | none => none
  | some (d1, r1) =>
    match optCls (fun c => isUpperCh c || isDigitCh c) pcMid r1 with
    | none => none
    | some (m2, r2) => some (d1 ++ m2, r2)

/-- `\b[A-Z]{1,2}\d[A-Z0-9]?\s*\d[A-Z]{2}\b` at the current position
(greedy: two leading letters are tried before one). -/
def tryPC (prev : Option Char) (l : List Char) : Option (List Char × List Char) :=
  if noWord prev then
    match leadN isUpperCh 1 l with
    | none => none
    | some (u1, r1) =>
      match (match leadN isUpperCh 1 r1 with
             | some (u2, r2) =>
               match pcAfterLetters r2 with
               | some (m, r) => some (u1 ++ u2 ++ m, r)
               | none => none
             | none => none) with
      | some res => some res
      | none =>
        match pcAfterLetters r1 with
        | some (m, r) => some (u1 ++ m, r)
        | none => none
  else none

/-- `n` digits then the trailing boundary, for the phone pattern. -/
def phoneTail (n : Nat) (c : Char) (cs : List Char) : Option (List Char × List Char) :=
  match leadN isDigitCh n cs with
  | some (d, r) => if noWord r.head? then some (c :: d, r) else none
  | none => none

/-- `\b0\d{9,10}\b` at the current position (greedy: ten digits after the
leading zero are tried before nine). -/
def tryPhone (prev : Option Char) (l : List Char) : Option (List Char × List Char) :=
  if noWord prev then
    match l with
    | [] => none
    | c :: cs =>
      if c == '0' then
        match phoneTail 10 c cs with
        | some res => some res
        | none => phoneTail 9 c cs
      else none
  else none

/-- One `re.sub` pass: scan left to right; at a match emit the replacement
and continue after the matched span (the `\b` context for the next
position is the last character of the original matched span, since `re`
scans the original string); otherwise emit the character and advance one
position.  `fuel` bounds the recursion; every pattern here consumes at
least one character per match, so `fuel = length` always suffices. -/
def scanSub (tryM : Option Char → List Char → Option (List Char × List Char))
    (repl : List Char) : Nat → Option Char → List Char → List Char
  | 0, _, l => l
  | _ + 1, _, [] => []
  | fuel + 1, prev, c :: cs =>
    match tryM prev (c :: cs) with
    | some (m, r) => repl ++ scanSub tryM repl fuel m.getLast? r
    | none => c :: scanSub tryM repl fuel (some c) cs

/-- `re.sub(pattern, repl, s)` for one of the five patterns. -/
def reSub (tryM : Option Char → List Char → Option (List Char × List Char))
    (repl : String) (s : String) : String :=
  ⟨scanSub tryM repl.data s.data.length none s.data⟩

/-- `deidentify_text` of `app/services/extractor.py`: the five
substitutions applied in order. -/
def deidentify_text (text : String) : String :=
  let t1 := reSub (fun _ l => tryName l) "Name: <<PATIENT_NAME>>" text
  let t2 := reSub (fun _ l => tryDob l) "DOB: <<DOB>>" t1
  let t3 := reSub tryNHS "<<NHS_NUMBER>>" t2
  let t4 := reSub tryPC "<<POSTCODE>>" t3
  reSub tryPhone "<<PHONE_NUMBER>>" t4

/-! ## Claim theorems for the scrubber -/

/-- C5 counterexample: the postcode substitution is NOT case-insensitive —
the lower-case postcode-shaped token `"sw1a 1aa"` is left completely
unchanged by `deidentify_text` (in particular it is not replaced by
`<<POSTCODE>>`), refuting the claim that it is replaced just as an
upper-case one is. -/
theorem postcode_lowercase_not_scrubbed :
    deidentify_text "sw1a 1aa" = "sw1a 1aa" ∧
    deidentify_text "sw1a 1aa" ≠ "<<POSTCODE>>" := by
  refine ⟨by decide, by decide⟩

/-- C5 amended: the name and DOB rules match case-insensitively (their
patterns carry the `(?i)` flag), the NHS-number and phone rules contain
no letters so case cannot matter, but the postcode rule is written with
bare `[A-Z]` classes and no flag, so it matches only upper-case tokens:
`"SW1A 1AA"` is replaced by `<<POSTCODE>>` while `"sw1a 1aa"` is not. -/
theorem scrub_case_sensitivity :
    deidentify_text "nAmE: John" = "Name: <<PATIENT_NAME>>" ∧
    deidentify_text "dOb: 1.2.83" = "DOB: <<DOB>>" ∧
    deidentify_text "SW1A 1AA" = "<<POSTCODE>>" ∧
    deidentify_text "sw1a 1aa" = "sw1a 1aa" := by
  refine ⟨by decide, by decide, by decide, by decide⟩

/-! ### Generic scan infrastructure for the idempotence proof -/

/-- The character on the left of the position after reading `u`, starting
from left context `prev`. -/
def ctx (prev : Option Char) : List Char → Option Char
  | [] => prev
  | c :: cs => ctx (some c) cs

theorem ctx_append (prev : Option Char) (a b : List Char) :
    ctx prev (a ++ b) = ctx (ctx prev a) b := by
  induction a generalizing prev with
  | nil => rfl
  | cons c cs ih => simp [ctx, ih]

theorem ctx_getLast (prev : Option Char) (m : List Char) (hm : m ≠ []) :
    ctx prev m = m.getLast? := by
  induction m generalizing prev with
  | nil => exact absurd rfl hm
  | cons c cs ih =>
    cases cs with
    | nil => rfl
    | cons c' cs' =>
      show ctx (some c) (c' :: cs') = (c :: c' :: cs').getLast?
      rw [ih (some c) (by simp), List.getLast?_cons_cons]

/-- A type of matchers: left context and tail to matched span and rest. -/
abbrev Matcher := Option Char → List Char → Option (List Char × List Char)

/-- `Chunks M R prev l out`: `out` is a correct result of one `re.sub`
pass of `M`/`R` over `l` with left context `prev`. -/
inductive Chunks (M : Matcher) (R : List Char) :
    Option Char → List Char → List Char → Prop
  | nil (prev : Option Char) : Chunks M R prev [] []
  | keep (prev : Option Char) (c : Char) (cs out : List Char) :
      M prev (c :: cs) = none → Chunks M R (some c) cs out →
      Chunks M R prev (c :: cs) (c :: out)
  | repl (prev : Option Char) (m r out : List Char) :
      M prev (m ++ r) = some (m, r) → m ≠ [] →
      Chunks M R (ctx prev m) r out → Chunks M R prev (m ++ r) (R ++ out)

/-- A matcher is spanning when every match splits the input and is
nonempty. -/
def Spanning (M : Matcher) : Prop :=
  ∀ prev l m r, M prev l = some (m, r) → l = m ++ r ∧ m ≠ []

theorem chunks_scanSub {M : Matcher} {R : List Char} (hM : Spanning M) :
    ∀ (fuel : Nat) (l : List Char) (prev : Option Char), l.length ≤ fuel →
      Chunks M R prev l (scanSub M R fuel prev l) := by
  intro fuel
  induction fuel with
  | zero =>
    intro l prev hl
    have : l = [] := List.eq_nil_of_length_eq_zero (Nat.le_zero.mp hl)
    subst this
    exact Chunks.nil prev
  | succ f ih =>
    intro l prev hl
    cases l with
    | nil => exact Chunks.nil prev
    | cons c cs =>
      rw [scanSub]
      cases hm : M prev (c :: cs) with
      | none =>
        exact Chunks.keep prev c cs _ hm (ih cs (some c) (Nat.le_of_succ_le_succ hl))
      | some mr =>
        obtain ⟨m, r⟩ := mr
        obtain ⟨hsplit, hne⟩ := hM prev (c :: cs) m r hm
        have hr : r.length ≤ f := by
          have hlen : (c :: cs).length = m.length + r.length := by
            rw [hsplit, List.length_append]
          have hm1 : 1 ≤ m.length := by
            cases m with
            | nil => exact absurd rfl hne
            | cons _ _ => simp
          simp only [List.length_cons] at hl hlen
          omega
        have := Chunks.repl (M := M) (R := R) prev m r
          (scanSub M R f m.getLast? r)
          (by rw [← hsplit]; exact hm) hne
          (by rw [ctx_getLast prev m hne]; exact ih r m.getLast? hr)
        rwa [← hsplit] at this

/-- Self-replacement: every match the scan can see replaces itself. -/
def SelfRepl (M : Matcher) (R : List Char) (prev0 : Option Char) (l : List Char) : Prop :=
  ∀ u v m r, l = u ++ v → M (ctx prev0 u) v = some (m, r) → m = R

theorem scanSub_eq_self {M : Matcher} {R : List Char} (hM : Spanning M) :
    ∀ (fuel : Nat) (l : List Char) (prev0 : Option Char), l.length ≤ fuel →
      SelfRepl M R prev0 l → scanSub M R fuel prev0 l = l := by
  intro fuel
  induction fuel with
  | zero =>
    intro l prev0 hl _
    have : l = [] := List.eq_nil_of_length_eq_zero (Nat.le_zero.mp hl)
    subst this
    rfl
  | succ f ih =>
    intro l prev0 hl hself
    cases l with
    | nil => rfl
    | cons c cs =>
      rw [scanSub]
      cases hm : M prev0 (c :: cs) with
      | none =>
        have : scanSub M R f (some c) cs = cs := by
          refine ih cs (some c) (Nat.le_of_succ_le_succ hl) ?_
          intro u v m r hdec hmv
          exact hself (c :: u) v m r (by simp [hdec]) hmv
        rw [this]
      | some mr =>
        obtain ⟨m, r⟩ := mr
        obtain ⟨hsplit, hne⟩ := hM prev0 (c :: cs) m r hm
        have hmR : m = R := hself [] (c :: cs) m r rfl hm
        have hr : r.length ≤ f := by
          have hlen : (c :: cs).length = m.length + r.length := by
            rw [hsplit, List.length_append]
          have hm1 : 1 ≤ m.length := by
            cases m with
            | nil => exact absurd rfl hne
            | cons _ _ => simp
          simp only [List.length_cons] at hl hlen
          omega
        have htail : scanSub M R f m.getLast? r = r := by
          refine ih r m.getLast? hr ?_
          intro u v m' r' hdec hmv
          refine hself (m ++ u) v m' r' ?_ ?_
          · rw [hsplit, hdec, List.append_assoc]
          · rwa [ctx_append, ctx_getLast prev0 m hne]
        show R ++ scanSub M R f m.getLast? r = c :: cs
        rw [htail, ← hmR, hsplit]

/-- The identity instance used for each pass: if every position of `s`
either has no match or matches its own replacement, the pass returns `s`
unchanged. -/
theorem reSub_eq_self {M : Matcher} {R : String} (hM : Spanning M)
    (s : String) (hself : SelfRepl M R.data none s.data) :
    reSub M R s = s := by
  unfold reSub
  rw [scanSub_eq_self hM s.data.length s.data none (Nat.le_refl _) hself]

/-! ### Component lemmas for the pattern matchers -/

theorem leadCI_some {p l m r} (h : leadCI p l = some (m, r)) :
    l = m ++ r ∧ m.map lowerCh = p := by
  induction p generalizing l m r with
  | nil =>
    simp only [leadCI, Option.some.injEq, Prod.mk.injEq] at h
    obtain ⟨hm, hr⟩ := h
    subst hm; subst hr
    exact ⟨rfl, rfl⟩
  | cons pc ps ih =>
    cases l with
    | nil => exact absurd h (by simp [leadCI])
    | cons c cs =>
      simp only [leadCI] at h
      by_cases hc : (lowerCh c == pc) = true
      · rw [if_pos hc] at h
        cases hlead : leadCI ps cs with
        | none => rw [hlead] at h; exact absurd h (by simp)
        | some mr =>
          obtain ⟨m', r'⟩ := mr
          rw [hlead] at h
          simp only [Option.some.injEq, Prod.mk.injEq] at h
          obtain ⟨hm, hr⟩ := h
          obtain ⟨h1, h2⟩ := ih hlead
          subst hm; subst hr; subst h1
          refine ⟨rfl, ?_⟩
          simp [h2, beq_iff_eq.mp hc]
      · rw [if_neg hc] at h
        exact absurd h (by simp)

theorem leadCI_complete {p m} (hp : m.map lowerCh = p) (r : List Char) :
    leadCI p (m ++ r) = some (m, r) := by
  induction m generalizing p with
  | nil => subst hp; rfl
  | cons c cs ih =>
    subst hp
    show leadCI (lowerCh c :: List.map lowerCh cs) (c :: (cs ++ r)) = some (c :: cs, r)
    simp only [leadCI, beq_self_eq_true, if_true, ih rfl]

theorem leadN_some {p n l m r} (h : leadN p n l = some (m, r)) :
    l = m ++ r ∧ m.length = n ∧ ∀ c ∈ m, p c = true := by
  induction n generalizing l m r with
  | zero =>
    simp only [leadN, Option.some.injEq, Prod.mk.injEq] at h
    obtain ⟨hm, hr⟩ := h
    subst hm; subst hr
    exact ⟨rfl, rfl, by simp⟩
  | succ k ih =>
    cases l with
    | nil => exact absurd h (by simp [leadN])
    | cons c cs =>
      simp only [leadN] at h
      by_cases hc : p c = true
      · rw [if_pos hc] at h
        cases hlead : leadN p k cs with
        | none => rw [hlead] at h; exact absurd h (by simp)
        | some mr =>
          obtain ⟨m', r'⟩ := mr
          rw [hlead] at h
          simp only [Option.some.injEq, Prod.mk.injEq] at h
          obtain ⟨hm, hr⟩ := h
          obtain ⟨h1, h2, h3⟩ := ih hlead
          subst hm; subst hr; subst h1
          refine ⟨rfl, by simp [h2], ?_⟩
          intro x hx
          rcases List.mem_cons.mp hx with hx | hx
          · subst hx; exact hc
          · exact h3 x hx
      · rw [if_neg hc] at h
        exact absurd h (by simp)

theorem leadN_complete {p : Char → Bool} {n m} (hlen : m.length = n)
    (hall : ∀ c ∈ m, p c = true) (r : List Char) :
    leadN p n (m ++ r) = some (m, r) := by
  induction m generalizing n with
  | nil => subst hlen; rfl
  | cons c cs ih =>
    subst hlen
    show leadN p (cs.length + 1) (c :: (cs ++ r)) = some (c :: cs, r)
    simp only [leadN, hall c (List.mem_cons_self c cs), if_true,
      ih rfl (fun x hx => hall x (List.mem_cons_of_mem c hx))]

theorem spanP_eq (p : Char → Bool) (l : List Char) :
    spanP p l = (l.takeWhile p, l.dropWhile p) := by
  induction l with
  | nil => rfl
  | cons c cs ih =>
    by_cases hc : p c = true <;>
      simp [spanP, List.takeWhile, List.dropWhile, hc, ih]

theorem spanP_complete {p : Char → Bool} {m r} (hall : ∀ c ∈ m, p c = true)
    (hr : ∀ c, r.head? = some c → p c = false) :
    spanP p (m ++ r) = (m, r) := by
  induction m with
  | nil =>
    cases r with
    | nil => rfl
    | cons c cs =>
      have := hr c rfl
      simp [spanP, this]
  | cons c cs ih =>
    have hc := hall c (List.mem_cons_self c cs)
    simp [spanP, hc, ih (fun x hx => hall x (List.mem_cons_of_mem c hx))]

theorem dropWhile_head_false (p : Char → Bool) (l : List Char) :
    ∀ c, (l.dropWhile p).head? = some c → p c = false := by
  induction l with
  | nil => simp [List.dropWhile]
  | cons a as ih =>
    intro c h
    by_cases ha : p a = true
    · rw [List.dropWhile_cons, if_pos ha] at h
      exact ih c h
    · rw [List.dropWhile_cons, if_neg ha] at h
      simp only [List.head?_cons, Option.some.injEq] at h
      subst h
      exact Bool.eq_false_iff.mpr ha

theorem spanP_some {p : Char → Bool} {l m r} (h : spanP p l = (m, r)) :
    l = m ++ r ∧ (∀ c ∈ m, p c = true) ∧ ∀ c, r.head? = some c → p c = false := by
  rw [spanP_eq] at h
  cases h
  exact ⟨(List.takeWhile_append_dropWhile ..).symm,
    fun c hc => List.mem_takeWhile_imp hc,
    dropWhile_head_false p l⟩

theorem optCls_some {p k l m r} (h : optCls p k l = some (m, r)) :
    (∃ c cs m', l = c :: cs ∧ p c = true ∧ k cs = some (m', r) ∧ m = c :: m') ∨
      k l = some (m, r) := by
  cases l with
  | nil => exact Or.inr h
  | cons c cs =>
    simp only [optCls] at h
    by_cases hc : p c = true
    · rw [if_pos hc] at h
      cases hk : k cs with
      | none => rw [hk] at h; exact Or.inr h
      | some mr =>
        obtain ⟨m', r'⟩ := mr
        rw [hk] at h
        simp only [Option.some.injEq, Prod.mk.injEq] at h
        obtain ⟨hm, hr⟩ := h
        subst hm; subst hr
        exact Or.inl ⟨c, cs, m', rfl, hc, hk, rfl⟩
    · rw [if_neg hc] at h
      exact Or.inr h

theorem optCls_ne_none_skip {p k l} (hk : k l ≠ none) : optCls p k l ≠ none := by
  cases l with
  | nil => exact hk
  | cons c cs =>
    simp only [optCls]
    by_cases hc : p c = true
    · rw [if_pos hc]
      cases hkcs : k cs with
      | none => exact hk
      | some mr => obtain ⟨m, r⟩ := mr; simp
    · rw [if_neg hc]
      exact hk

theorem optCls_ne_none_take {p k c cs} (hc : p c = true) (hk : k cs ≠ none) :
    optCls p k (c :: cs) ≠ none := by
  simp only [optCls, if_pos hc]
  cases hkcs : k cs with
  | none => exact absurd hkcs hk
  | some mr => obtain ⟨m, r⟩ := mr; simp

/-! ### Shape characterizations of the three boundary-anchored patterns -/

def digitRun (n : Nat) (m : List Char) : Prop :=
  m.length = n ∧ ∀ c ∈ m, isDigitCh c = true

def optSpace (s : List Char) : Prop :=
  s = [] ∨ ∃ c, s = [c] ∧ isSpaceCh c = true

/-- The texts `\d{3}\s?\d{3}\s?\d{4}` can match. -/
def nhsShape (m : List Char) : Prop :=
  ∃ d1 s1 d2 s2 d3, m = d1 ++ (s1 ++ (d2 ++ (s2 ++ d3))) ∧
    digitRun 3 d1 ∧ optSpace s1 ∧ digitRun 3 d2 ∧ optSpace s2 ∧ digitRun 4 d3

theorem nhsEnd_some {l m r} (h : nhsEnd l = some (m, r)) :
    l = m ++ r ∧ digitRun 4 m ∧ noWord r.head? = true := by
  unfold nhsEnd at h
  cases h4 : leadN isDigitCh 4 l with
  | none => rw [h4] at h; exact absurd h (by simp)
  | some p =>
    obtain ⟨d, r'⟩ := p
    simp only [h4] at h
    cases hb : noWord r'.head? with
    | false => simp [hb] at h
    | true =>
      simp only [hb, if_true] at h
      obtain ⟨hm, hr⟩ := Prod.mk.injEq .. ▸ Option.some.inj h
      subst hm; subst hr
      obtain ⟨hsplit, hlen, hall⟩ := leadN_some h4
      exact ⟨hsplit, ⟨hlen, hall⟩, hb⟩

theorem nhsEnd_complete {m r} (hd : digitRun 4 m) (hb : noWord r.head? = true) :
    nhsEnd (m ++ r) = some (m, r) := by
  unfold nhsEnd
  simp only [leadN_complete hd.1 hd.2]
  rw [if_pos hb]

theorem nhsMid_some {l m r} (h : nhsMid l = some (m, r)) :
    l = m ++ r ∧
      (∃ d2 s2 d3, m = d2 ++ (s2 ++ d3) ∧ digitRun 3 d2 ∧ optSpace s2 ∧ digitRun 4 d3) ∧
      noWord r.head? = true := by
  unfold nhsMid at h
  cases h2 : leadN isDigitCh 3 l with
  | none => rw [h2] at h; exact absurd h (by simp)
  | some p =>
    obtain ⟨d2, r2⟩ := p
    simp only [h2] at h
    cases h3 : optCls isSpaceCh nhsEnd r2 with
    | none => rw [h3] at h; exact absurd h (by simp)
    | some p3 =>
      obtain ⟨m3, r3⟩ := p3
      simp only [h3] at h
      obtain ⟨hm, hr⟩ := Prod.mk.injEq .. ▸ Option.some.inj h
      subst hm; subst hr
      obtain ⟨hsplit2, hlen2, hall2⟩ := leadN_some h2
      rcases optCls_some h3 with ⟨c, cs, m', hr2, hc, hend, hm3⟩ | hend
      · obtain ⟨hsplit3, hd3, hb3⟩ := nhsEnd_some hend
        subst hm3
        refine ⟨?_, ⟨d2, [c], m', ?_, ⟨hlen2, hall2⟩, ?_, hd3⟩, hb3⟩
        · rw [hsplit2, hr2, hsplit3]; simp
        · simp
        · exact Or.inr ⟨c, rfl, hc⟩
      · obtain ⟨hsplit3, hd3, hb3⟩ := nhsEnd_some hend
        refine ⟨?_, ⟨d2, [], m3, ?_, ⟨hlen2, hall2⟩, Or.inl rfl, hd3⟩, hb3⟩
        · rw [hsplit2, hsplit3]; simp
        · simp

theorem ne_none_of_match {α β} {x : Option α} {f : α → Option β}
    (hx : x ≠ none) (hf : ∀ a, f a ≠ none) :
    (match x with | none => none | some a => f a) ≠ none := by
  cases x with
  | none => exact absurd rfl hx
  | some a => exact hf a

theorem nhsMid_ne_none {d2 s2 d3 r} (h2 : digitRun 3 d2) (hs : optSpace s2)
    (h3 : digitRun 4 d3) (hb : noWord r.head? = true) :
    nhsMid (d2 ++ (s2 ++ (d3 ++ r))) ≠ none := by
  unfold nhsMid
  simp only [leadN_complete h2.1 h2.2]
  have hend : nhsEnd (d3 ++ r) ≠ none := by
    rw [nhsEnd_complete h3 hb]; simp
  have hopt : optCls isSpaceCh nhsEnd (s2 ++ (d3 ++ r)) ≠ none := by
    rcases hs with hs | ⟨c, hc, hspace⟩
    · subst hs
      exact optCls_ne_none_skip hend
    · subst hc
      exact optCls_ne_none_take hspace hend
  cases ho : optCls isSpaceCh nhsEnd (s2 ++ (d3 ++ r)) with
  | none => exact absurd ho hopt
  | some p => obtain ⟨a, b⟩ := p; simp

theorem tryNHS_some {prev l m r} (h : tryNHS prev l = some (m, r)) :
    l = m ++ r ∧ nhsShape m ∧ noWord prev = true ∧ noWord r.head? = true := by
  unfold tryNHS at h
  cases hp : noWord prev with
  | false => simp [hp] at h
  | true =>
    simp only [hp, if_true] at h
    cases h1 : leadN isDigitCh 3 l with
    | none => rw [h1] at h; exact absurd h (by simp)
    | some p1 =>
      obtain ⟨d1, r1⟩ := p1
      simp only [h1] at h
      cases h2 : optCls isSpaceCh nhsMid r1 with
      | none => rw [h2] at h; exact absurd h (by simp)
      | some p2 =>
        obtain ⟨m2, r2⟩ := p2
        simp only [h2] at h
        obtain ⟨hm, hr⟩ := Prod.mk.injEq .. ▸ Option.some.inj h
        subst hm; subst hr
        obtain ⟨hsplit1, hlen1, hall1⟩ := leadN_some h1
        rcases optCls_some h2 with ⟨c, cs, m', hr1, hc, hmid, hm2⟩ | hmid
        · obtain ⟨hsplitm, ⟨dd2, ss2, dd3, hmm, hq2, hqs, hq3⟩, hbm⟩ := nhsMid_some hmid
          subst hm2
          refine ⟨?_, ⟨d1, [c], dd2, ss2, dd3, ?_, ⟨hlen1, hall1⟩,
            Or.inr ⟨c, rfl, hc⟩, hq2, hqs, hq3⟩, rfl, hbm⟩
          · rw [hsplit1, hr1, hsplitm, hmm]; simp
          · rw [hmm]; simp
        · obtain ⟨hsplitm, ⟨dd2, ss2, dd3, hmm, hq2, hqs, hq3⟩, hbm⟩ := nhsMid_some hmid
          refine ⟨?_, ⟨d1, [], dd2, ss2, dd3, ?_, ⟨hlen1, hall1⟩,
            Or.inl rfl, hq2, hqs, hq3⟩, rfl, hbm⟩
          · rw [hsplit1, hsplitm, hmm]; simp
          · rw [hmm]; simp

theorem tryNHS_ne_none {prev m r} (hp : noWord prev = true) (hm : nhsShape m)
    (hb : noWord r.head? = true) : tryNHS prev (m ++ r) ≠ none := by
  obtain ⟨d1, s1, d2, s2, d3, hmeq, h1, hs1, h2, hs2, h3⟩ := hm
  unfold tryNHS
  rw [if_pos hp]
  subst hmeq
  rw [show d1 ++ (s1 ++ (d2 ++ (s2 ++ d3))) ++ r =
    d1 ++ (s1 ++ (d2 ++ (s2 ++ (d3 ++ r)))) from by simp]
  simp only [leadN_complete h1.1 h1.2]
  have hmid : nhsMid (d2 ++ (s2 ++ (d3 ++ r))) ≠ none := nhsMid_ne_none h2 hs2 h3 hb
  have hopt : optCls isSpaceCh nhsMid (s1 ++ (d2 ++ (s2 ++ (d3 ++ r)))) ≠ none := by
    rcases hs1 with hs | ⟨c, hc, hspace⟩
    · subst hs; exact optCls_ne_none_skip hmid
    · subst hc; exact optCls_ne_none_take hspace hmid
  cases ho : optCls isSpaceCh nhsMid (s1 ++ (d2 ++ (s2 ++ (d3 ++ r)))) with
  | none => exact absurd ho hopt
  | some p => obtain ⟨a, b⟩ := p; simp

theorem word_of_digit {c : Char} (h : isDigitCh c = true) : isWordCh c = true := by
  simp only [isWordCh, Char.isAlphanum, Bool.or_eq_true]
  exact Or.inl (Or.inr h)

theorem word_of_upper {c : Char} (h : isUpperCh c = true) : isWordCh c = true := by
  simp only [isUpperCh, Bool.and_eq_true, decide_eq_true_eq] at h
  obtain ⟨h1, h2⟩ := h
  simp only [isWordCh, Char.isAlphanum, Char.isAlpha, Char.isUpper, Bool.or_eq_true,
    Bool.and_eq_true, decide_eq_true_eq]
  exact Or.inl (Or.inl (Or.inl ⟨h1, h2⟩))

/-- The texts `0\d{9,10}` can match. -/
def phoneShape (m : List Char) : Prop :=
  ∃ ds, m = '0' :: ds ∧ (ds.length = 9 ∨ ds.length = 10) ∧ ∀ c ∈ ds, isDigitCh c = true

theorem phoneTail_some {n c cs m r} (h : phoneTail n c cs = some (m, r)) :
    ∃ d, m = c :: d ∧ cs = d ++ r ∧ d.length = n ∧ (∀ x ∈ d, isDigitCh x = true) ∧
      noWord r.head? = true := by
  unfold phoneTail at h
  cases hl : leadN isDigitCh n cs with
  | none => simp [hl] at h
  | some p =>
    obtain ⟨d, r'⟩ := p
    simp only [hl] at h
    cases hb : noWord r'.head? with
    | false => simp [hb] at h
    | true =>
      simp only [hb, if_true] at h
      obtain ⟨hm, hr⟩ := Prod.mk.injEq .. ▸ Option.some.inj h
      subst hm; subst hr
      obtain ⟨hsplit, hlen, hall⟩ := leadN_some hl
      exact ⟨d, rfl, hsplit, hlen, hall, hb⟩

theorem phoneTail_complete {n : Nat} {c : Char} {ds r : List Char}
    (hlen : ds.length = n) (hall : ∀ x ∈ ds, isDigitCh x = true)
    (hb : noWord r.head? = true) :
    phoneTail n c (ds ++ r) = some (c :: ds, r) := by
  unfold phoneTail
  simp only [leadN_complete hlen hall]
  rw [if_pos hb]

theorem tryPhone_some {prev l m r} (h : tryPhone prev l = some (m, r)) :
    l = m ++ r ∧ phoneShape m ∧ noWord prev = true ∧ noWord r.head? = true := by
  unfold tryPhone at h
  cases hp : noWord prev with
  | false => simp [hp] at h
  | true =>
    simp only [hp, if_true] at h
    cases l with
    | nil => exact absurd h (by simp)
    | cons c cs =>
      have h' : (if (c == '0') = true then
          match phoneTail 10 c cs with
          | some res => some res
          | none => phoneTail 9 c cs
        else none) = some (m, r) := h
      clear h
      by_cases hc : (c == '0') = true
      · rw [if_pos hc] at h'
        have hc0 : c = '0' := beq_iff_eq.mp hc
        subst hc0
        cases h10 : phoneTail 10 '0' cs with
        | some res =>
          simp only [h10] at h'
          obtain ⟨d, hm0, hcs, hlen, hall, hb⟩ := phoneTail_some (h10.trans h')
          exact ⟨by rw [hcs, hm0]; rfl, ⟨d, hm0, Or.inr hlen, hall⟩, rfl, hb⟩
        | none =>
          simp only [h10] at h'
          obtain ⟨d, hm0, hcs, hlen, hall, hb⟩ := phoneTail_some h'
          exact ⟨by rw [hcs, hm0]; rfl, ⟨d, hm0, Or.inl hlen, hall⟩, rfl, hb⟩
      · rw [if_neg hc] at h'
        exact absurd h' (by simp)

theorem tryPhone_ne_none {prev m r} (hp : noWord prev = true) (hm : phoneShape m)
    (hb : noWord r.head? = true) : tryPhone prev (m ++ r) ≠ none := by
  obtain ⟨ds, hm0, hlen, hall⟩ := hm
  subst hm0
  unfold tryPhone
  rw [if_pos hp]
  show (if ('0' == '0') = true then
      match phoneTail 10 '0' (ds ++ r) with
      | some res => some res
      | none => phoneTail 9 '0' (ds ++ r)
    else none) ≠ none
  rw [if_pos (beq_self_eq_true '0')]
  rcases hlen with h9 | h10
  · have h10none : phoneTail 10 '0' (ds ++ r) = none := by
      unfold phoneTail
      cases hl : leadN isDigitCh 10 (ds ++ r) with
      | none => rfl
      | some p =>
        obtain ⟨d, r'⟩ := p
        obtain ⟨hsplit, hdlen, hdall⟩ := leadN_some hl
        exfalso
        obtain ⟨k, hk1, hk2⟩ : ∃ k, d = ds ++ k ∧ r = k ++ r' := by
          rcases List.append_eq_append_iff.mp hsplit with ⟨a, ha1, ha2⟩ | ⟨cc, hc1, hc2⟩
          · exact ⟨a, ha1, ha2⟩
          · exfalso
            have hlendd : ds.length = d.length + cc.length := by rw [hc1]; simp
            omega
        cases k with
        | nil =>
          rw [hk1, List.append_nil] at hdlen
          omega
        | cons x xs =>
          have hx : isDigitCh x = true := hdall x (by rw [hk1]; simp)
          have : r.head? = some x := by rw [hk2]; rfl
          rw [this] at hb
          simp only [noWord, Bool.not_eq_true'] at hb
          rw [word_of_digit hx] at hb
          exact absurd hb (by simp)
    rw [h10none, phoneTail_complete h9 hall hb]
    simp
  · rw [phoneTail_complete h10 hall hb]
    simp

/-! Character-class disjointness facts. -/

theorem space_enum {c : Char} (h : isSpaceCh c = true) :
    c = ' ' ∨ c = '\t' ∨ c = '\n' ∨ c = '\r' ∨ c = '\x0b' ∨ c = '\x0c' := by
  simpa [isSpaceCh, or_assoc] using h

theorem not_digit_of_space {c : Char} (h : isSpaceCh c = true) : isDigitCh c = false := by
  rcases space_enum h with h|h|h|h|h|h <;> subst h <;> decide

theorem not_upper_of_space {c : Char} (h : isSpaceCh c = true) : isUpperCh c = false := by
  rcases space_enum h with h|h|h|h|h|h <;> subst h <;> decide

theorem not_word_of_space {c : Char} (h : isSpaceCh c = true) : isWordCh c = false := by
  rcases space_enum h with h|h|h|h|h|h <;> subst h <;> decide

theorem uint32_le_toNat {a b : UInt32} : a ≤ b ↔ a.toNat ≤ b.toNat := by
  rw [UInt32.le_def, BitVec.le_def]
  rfl

theorem char_le_toNat {a b : Char} : a ≤ b ↔ a.toNat ≤ b.toNat := by
  rw [Char.le_def, uint32_le_toNat]
  rfl

theorem digit_toNat {c : Char} (h : isDigitCh c = true) :
    48 ≤ c.toNat ∧ c.toNat ≤ 57 := by
  simp only [isDigitCh, Char.isDigit, Bool.and_eq_true, decide_eq_true_eq] at h
  obtain ⟨h1, h2⟩ := h
  have e48 : (48 : UInt32).toNat = 48 := rfl
  have e57 : (57 : UInt32).toNat = 57 := rfl
  exact ⟨e48 ▸ uint32_le_toNat.mp h1, e57 ▸ uint32_le_toNat.mp h2⟩

theorem upper_toNat {c : Char} (h : isUpperCh c = true) :
    65 ≤ c.toNat ∧ c.toNat ≤ 90 := by
  simp only [isUpperCh, Bool.and_eq_true, decide_eq_true_eq] at h
  obtain ⟨h1, h2⟩ := h
  exact ⟨char_le_toNat.mp h1, char_le_toNat.mp h2⟩

theorem not_upper_of_digit {c : Char} (h : isDigitCh c = true) : isUpperCh c = false := by
  obtain ⟨h1, h2⟩ := digit_toNat h
  cases hu : isUpperCh c with
  | false => rfl
  | true =>
    obtain ⟨h3, _⟩ := upper_toNat hu
    omega

theorem not_space_of_digit {c : Char} (h : isDigitCh c = true) : isSpaceCh c = false := by
  cases hs : isSpaceCh c with
  | false => rfl
  | true => rw [not_digit_of_space hs] at h; exact absurd h (by simp)

theorem not_space_of_upper {c : Char} (h : isUpperCh c = true) : isSpaceCh c = false := by
  cases hs : isSpaceCh c with
  | false => rfl
  | true => rw [not_upper_of_space hs] at h; exact absurd h (by simp)

/-! ### Postcode shape characterization -/

def optUpDig (o : List Char) : Prop :=
  o = [] ∨ ∃ c, o = [c] ∧ (isUpperCh c || isDigitCh c) = true

/-- The texts `[A-Z]{1,2}\d[A-Z0-9]?\s*\d[A-Z]{2}` can match. -/
def pcShape (m : List Char) : Prop :=
  ∃ us d1 o ws d2 u2, m = us ++ (d1 ++ (o ++ (ws ++ (d2 ++ u2)))) ∧
    (us.length = 1 ∨ us.length = 2) ∧ (∀ c ∈ us, isUpperCh c = true) ∧
    digitRun 1 d1 ∧ optUpDig o ∧ (∀ c ∈ ws, isSpaceCh c = true) ∧
    digitRun 1 d2 ∧ u2.length = 2 ∧ (∀ c ∈ u2, isUpperCh c = true)

theorem pcEnd_some {l m r} (h : pcEnd l = some (m, r)) :
    l = m ++ r ∧
      (∃ d2 u2, m = d2 ++ u2 ∧ digitRun 1 d2 ∧ u2.length = 2 ∧
        (∀ c ∈ u2, isUpperCh c = true)) ∧
      noWord r.head? = true := by
  unfold pcEnd at h
  cases h1 : leadN isDigitCh 1 l with
  | none => simp [h1] at h
  | some p =>
    obtain ⟨d, r'⟩ := p
    simp only [h1] at h
    cases h2 : leadN isUpperCh 2 r' with
    | none => simp [h2] at h
    | some p2 =>
      obtain ⟨u, r2⟩ := p2
      simp only [h2] at h
      cases hb : noWord r2.head? with
      | false => simp [hb] at h
      | true =>
        simp only [hb, if_true] at h
        obtain ⟨hm, hr⟩ := Prod.mk.injEq .. ▸ Option.some.inj h
        subst hm; subst hr
        obtain ⟨hs1, hl1, ha1⟩ := leadN_some h1
        obtain ⟨hs2, hl2, ha2⟩ := leadN_some h2
        exact ⟨by rw [hs1, hs2, List.append_assoc],
          ⟨d, u, rfl, ⟨hl1, ha1⟩, hl2, ha2⟩, hb⟩

theorem pcEnd_complete {d2 u2 r} (h2 : digitRun 1 d2) (hu : u2.length = 2)
    (hua : ∀ c ∈ u2, isUpperCh c = true) (hb : noWord r.head? = true) :
    pcEnd (d2 ++ (u2 ++ r)) = some (d2 ++ u2, r) := by
  unfold pcEnd
  simp only [leadN_complete h2.1 h2.2, leadN_complete hu hua]
  rw [if_pos hb]

theorem pcMid_some {l m r} (h : pcMid l = some (m, r)) :
    l = m ++ r ∧
      (∃ ws d2 u2, m = ws ++ (d2 ++ u2) ∧ (∀ c ∈ ws, isSpaceCh c = true) ∧
        digitRun 1 d2 ∧ u2.length = 2 ∧ (∀ c ∈ u2, isUpperCh c = true)) ∧
      noWord r.head? = true := by
  unfold pcMid at h
  cases hsp : spanP isSpaceCh l with
  | mk ws r2 =>
    simp only [hsp] at h
    cases he : pcEnd r2 with
    | none => simp [he] at h
    | some p =>
      obtain ⟨me, r3⟩ := p
      simp only [he] at h
      obtain ⟨hm, hr⟩ := Prod.mk.injEq .. ▸ Option.some.inj h
      subst hm; subst hr
      obtain ⟨hsplit, hws, _⟩ := spanP_some hsp
      obtain ⟨hsplit2, ⟨d2, u2, hme, hd2, hu2, hua2⟩, hb⟩ := pcEnd_some he
      refine ⟨by rw [hsplit, hsplit2, hme]; simp, ⟨ws, d2, u2, by rw [hme], hws,
        hd2, hu2, hua2⟩, hb⟩

theorem pcMid_complete {ws d2 u2 r} (hws : ∀ c ∈ ws, isSpaceCh c = true)
    (h2 : digitRun 1 d2) (hu : u2.length = 2) (hua : ∀ c ∈ u2, isUpperCh c = true)
    (hb : noWord r.head? = true) :
    pcMid (ws ++ (d2 ++ (u2 ++ r))) = some (ws ++ (d2 ++ u2), r) := by
  unfold pcMid
  have hspan : spanP isSpaceCh (ws ++ (d2 ++ (u2 ++ r))) = (ws, d2 ++ (u2 ++ r)) := by
    refine spanP_complete hws ?_
    intro c hc
    obtain ⟨x, hx⟩ : ∃ x, d2 = [x] := by
      cases d2 with
      | nil => exact absurd h2.1 (by simp)
      | cons a as =>
        cases as with
        | nil => exact ⟨a, rfl⟩
        | cons b bs => exact absurd h2.1 (by simp)
    subst hx
    simp only [List.cons_append, List.head?_cons, Option.some.injEq] at hc
    subst hc
    exact not_space_of_digit (h2.2 x (by simp))
  simp only [hspan, pcEnd_complete h2 hu hua hb]

theorem pcAfterLetters_some {l m r} (h : pcAfterLetters l = some (m, r)) :
    l = m ++ r ∧
      (∃ d1 o ws d2 u2, m = d1 ++ (o ++ (ws ++ (d2 ++ u2))) ∧ digitRun 1 d1 ∧
        optUpDig o ∧ (∀ c ∈ ws, isSpaceCh c = true) ∧ digitRun 1 d2 ∧
        u2.length = 2 ∧ (∀ c ∈ u2, isUpperCh c = true)) ∧
      noWord r.head? = true := by
  unfold pcAfterLetters at h
  cases h1 : leadN isDigitCh 1 l with
  | none => simp [h1] at h
  | some p =>
    obtain ⟨d1, r1⟩ := p
    simp only [h1] at h
    cases h2 : optCls (fun c => isUpperCh c || isDigitCh c) pcMid r1 with
    | none => simp [h2] at h
    | some p2 =>
      obtain ⟨m2, r2⟩ := p2
      simp only [h2] at h
      obtain ⟨hm, hr⟩ := Prod.mk.injEq .. ▸ Option.some.inj h
      subst hm; subst hr
      obtain ⟨hs1, hl1, ha1⟩ := leadN_some h1
      rcases optCls_some h2 with ⟨c, cs, m', hr1, hc, hmid, hm2⟩ | hmid
      · obtain ⟨hsm, ⟨ws, d2, u2, hmm, hws, hd2, hu2, hua2⟩, hb⟩ := pcMid_some hmid
        subst hm2
        refine ⟨?_, ⟨d1, [c], ws, d2, u2, ?_, ⟨hl1, ha1⟩,
          Or.inr ⟨c, rfl, hc⟩, hws, hd2, hu2, hua2⟩, hb⟩
        · rw [hs1, hr1, hsm, hmm]; simp
        · rw [hmm]; simp
      · obtain ⟨hsm, ⟨ws, d2, u2, hmm, hws, hd2, hu2, hua2⟩, hb⟩ := pcMid_some hmid
        refine ⟨?_, ⟨d1, [], ws, d2, u2, ?_, ⟨hl1, ha1⟩,
          Or.inl rfl, hws, hd2, hu2, hua2⟩, hb⟩
        · rw [hs1, hsm, hmm]; simp
        · rw [hmm]; simp

theorem pcAfterLetters_ne_none {d1 o ws d2 u2 r} (hd1 : digitRun 1 d1)
    (ho : optUpDig o) (hws : ∀ c ∈ ws, isSpaceCh c = true) (hd2 : digitRun 1 d2)
    (hu2 : u2.length = 2) (hua2 : ∀ c ∈ u2, isUpperCh c = true)
    (hb : noWord r.head? = true) :
    pcAfterLetters (d1 ++ (o ++ (ws ++ (d2 ++ (u2 ++ r))))) ≠ none := by
  unfold pcAfterLetters
  simp only [leadN_complete hd1.1 hd1.2]
  have hmid : pcMid (ws ++ (d2 ++ (u2 ++ r))) ≠ none := by
    rw [pcMid_complete hws hd2 hu2 hua2 hb]; simp
  have hopt : optCls (fun c => isUpperCh c || isDigitCh c) pcMid
      (o ++ (ws ++ (d2 ++ (u2 ++ r)))) ≠ none := by
    rcases ho with ho | ⟨c, hoc, hcud⟩
    · subst ho
      exact optCls_ne_none_skip hmid
    · subst hoc
      exact optCls_ne_none_take hcud hmid
  cases hoc : optCls (fun c => isUpperCh c || isDigitCh c) pcMid
      (o ++ (ws ++ (d2 ++ (u2 ++ r)))) with
  | none => exact absurd hoc hopt
  | some p => obtain ⟨a, b⟩ := p; simp

theorem tryPC_some {prev l m r} (h : tryPC prev l = some (m, r)) :
    l = m ++ r ∧ pcShape m ∧ noWord prev = true ∧ noWord r.head? = true := by
  unfold tryPC at h
  cases hp : noWord prev with
  | false => simp [hp] at h
  | true =>
    simp only [hp, if_true] at h
    cases h1 : leadN isUpperCh 1 l with
    | none => simp [h1] at h
    | some p1 =>
      obtain ⟨u1, r1⟩ := p1
      simp only [h1] at h
      obtain ⟨hs1, hl1, ha1⟩ := leadN_some h1
      cases h2 : leadN isUpperCh 1 r1 with
      | none =>
        simp only [h2] at h
        cases h3 : pcAfterLetters r1 with
        | none => simp [h3] at h
        | some p3 =>
          obtain ⟨m3, r3⟩ := p3
          simp only [h3] at h
          obtain ⟨hm, hr⟩ := Prod.mk.injEq .. ▸ Option.some.inj h
          subst hm; subst hr
          obtain ⟨hsa, ⟨d1, o, ws, d2, u2, hmm, q1, q2, q3, q4, q5, q6⟩, hb⟩ :=
            pcAfterLetters_some h3
          refine ⟨by rw [hs1, hsa, hmm]; simp, ⟨u1, d1, o, ws, d2, u2,
            by rw [hmm], Or.inl hl1, ha1, q1, q2, q3, q4, q5, q6⟩, rfl, hb⟩
      | some p2 =>
        obtain ⟨u2', r2⟩ := p2
        simp only [h2] at h
        obtain ⟨hs2, hl2, ha2⟩ := leadN_some h2
        cases h3 : pcAfterLetters r2 with
        | none =>
          simp only [h3] at h
          cases h4 : pcAfterLetters r1 with
          | none => simp [h4] at h
          | some p4 =>
            obtain ⟨m4, r4⟩ := p4
            simp only [h4] at h
            obtain ⟨hm, hr⟩ := Prod.mk.injEq .. ▸ Option.some.inj h
            subst hm; subst hr
            obtain ⟨hsa, ⟨d1, o, ws, d2, u2, hmm, q1, q2, q3, q4, q5, q6⟩, hb⟩ :=
              pcAfterLetters_some h4
            refine ⟨by rw [hs1, hsa, hmm]; simp, ⟨u1, d1, o, ws, d2, u2,
              by rw [hmm], Or.inl hl1, ha1, q1, q2, q3, q4, q5, q6⟩, rfl, hb⟩
        | some p3 =>
          obtain ⟨m3, r3⟩ := p3
          simp only [h3] at h
          obtain ⟨hm, hr⟩ := Prod.mk.injEq .. ▸ Option.some.inj h
          subst hm; subst hr
          obtain ⟨hsa, ⟨d1, o, ws, d2, u2, hmm, q1, q2, q3, q4, q5, q6⟩, hb⟩ :=
            pcAfterLetters_some h3
          refine ⟨?_, ⟨u1 ++ u2', d1, o, ws, d2, u2, ?_, ?_, ?_,
            q1, q2, q3, q4, q5, q6⟩, rfl, hb⟩
          · rw [hs1, hs2, hsa, hmm]; simp
          · rw [hmm]
          · right; rw [List.length_append, hl1, hl2]
          · intro c hc
            rcases List.mem_append.mp hc with hc | hc
            · exact ha1 c hc
            · exact ha2 c hc

theorem leadN_one_none {p : Char → Bool} {c : Char} {cs : List Char} (hc : p c = false) :
    leadN p 1 (c :: cs) = none := by
  unfold leadN
  simp [hc]

theorem match_opt_ne_none {α} {x : Option α} {y : Option α}
    (h : (match x with | some res => some res | none => y) = none) :
    x = none ∧ y = none := by
  cases x with
  | none => exact ⟨rfl, h⟩
  | some a => exact absurd h (by simp)

theorem tryPC_ne_none {prev m r} (hp : noWord prev = true) (hm : pcShape m)
    (hb : noWord r.head? = true) : tryPC prev (m ++ r) ≠ none := by
  obtain ⟨us, d1, o, ws, d2, u2, hmeq, hlen, hua, hd1, ho, hws, hd2, hu2, hua2⟩ := hm
  subst hmeq
  obtain ⟨x, hx⟩ : ∃ x, d1 = [x] := List.length_eq_one.mp hd1.1
  have hxd : isDigitCh x = true := hd1.2 x (by rw [hx]; simp)
  have hafter : pcAfterLetters (d1 ++ (o ++ (ws ++ (d2 ++ (u2 ++ r))))) ≠ none :=
    pcAfterLetters_ne_none hd1 ho hws hd2 hu2 hua2 hb
  unfold tryPC
  rw [if_pos hp]
  rcases hlen with h1 | h2
  · obtain ⟨a, ha⟩ := List.length_eq_one.mp h1
    subst ha
    have hau : isUpperCh a = true := hua a (by simp)
    have hstep : ([a] ++ (d1 ++ (o ++ (ws ++ (d2 ++ u2))))) ++ r =
        [a] ++ (d1 ++ (o ++ (ws ++ (d2 ++ (u2 ++ r))))) := by simp
    rw [hstep]
    simp only [leadN_complete (show ([a] : List Char).length = 1 from rfl)
      (by intro c hc; simp at hc; subst hc; exact hau)]
    have hfail : leadN isUpperCh 1 (d1 ++ (o ++ (ws ++ (d2 ++ (u2 ++ r))))) = none := by
      rw [hx]
      exact leadN_one_none (not_upper_of_digit hxd)
    simp only [hfail]
    cases hres : pcAfterLetters (d1 ++ (o ++ (ws ++ (d2 ++ (u2 ++ r))))) with
    | none => exact absurd hres hafter
    | some p => obtain ⟨a', b'⟩ := p; simp
  · obtain ⟨a, b, hab⟩ := List.length_eq_two.mp h2
    subst hab
    have hau : isUpperCh a = true := hua a (by simp)
    have hbu : isUpperCh b = true := hua b (by simp)
    have hstep : ([a, b] ++ (d1 ++ (o ++ (ws ++ (d2 ++ u2))))) ++ r =
        [a] ++ ([b] ++ (d1 ++ (o ++ (ws ++ (d2 ++ (u2 ++ r)))))) := by simp
    rw [hstep]
    simp only [leadN_complete (show ([a] : List Char).length = 1 from rfl)
      (by intro c hc; simp at hc; subst hc; exact hau)]
    simp only [leadN_complete (show ([b] : List Char).length = 1 from rfl)
      (by intro c hc; simp at hc; subst hc; exact hbu)]
    cases hres : pcAfterLetters (d1 ++ (o ++ (ws ++ (d2 ++ (u2 ++ r))))) with
    | none => exact absurd hres hafter
    | some p => obtain ⟨a', b'⟩ := p; simp

/-! ### Name/DOB rule characterization -/

/-- The replacement block of rule 1, as a character list. -/
def NAMEB : List Char := "Name: <<PATIENT_NAME>>".data

/-- The replacement block of rule 2, as a character list. -/
def DOBB : List Char := "DOB: <<DOB>>".data

/-- Continuation after a block: end of string or a newline. -/
def nlEnd (w : List Char) : Prop := w = [] ∨ ∃ w', w = '\n' :: w'

/-- A case-insensitive occurrence of `p` at the head of `v`. -/
def ciPre (p v : List Char) : Prop := ∃ m w, v = m ++ w ∧ m.map lowerCh = p

theorem tryName_some {l m r} (h : tryName l = some (m, r)) :
    l = m ++ r ∧ m ≠ [] ∧ nlEnd r ∧ ciPre "name:".data l := by
  unfold tryName at h
  cases h1 : leadCI "name:".data l with
  | none => simp [h1] at h
  | some p1 =>
    obtain ⟨m1, r1⟩ := p1
    simp only [h1] at h
    cases h2 : spanP isSpaceCh r1 with
    | mk m2 r2 =>
      simp only [h2] at h
      cases h3 : spanP (fun c => !(c == '\n')) r2 with
      | mk m3 r3 =>
        simp only [h3] at h
        obtain ⟨hm, hr⟩ := Prod.mk.injEq .. ▸ Option.some.inj h
        subst hm; subst hr
        obtain ⟨hs1, hci⟩ := leadCI_some h1
        obtain ⟨hs2, -, -⟩ := spanP_some h2
        obtain ⟨hs3, -, hr3⟩ := spanP_some h3
        refine ⟨by rw [hs1, hs2, hs3]; simp, ?_, ?_, m1, r1, hs1, hci⟩
        · intro hcon
          have : m1 = [] := by
            cases m1 with
            | nil => rfl
            | cons a as => simp at hcon
          subst this
          simp at hci
        · cases hr3eq : r3 with
          | nil => exact Or.inl rfl
          | cons c cs =>
            right
            refine ⟨cs, ?_⟩
            have hc := hr3 c (by rw [hr3eq]; rfl)
            simp only [Bool.not_eq_false'] at hc
            rw [beq_iff_eq.mp hc]

theorem tryName_none {l} (h : ¬ ciPre "name:".data l) : tryName l = none := by
  cases ht : tryName l with
  | none => rfl
  | some p =>
    obtain ⟨m, r⟩ := p
    exact absurd (tryName_some ht).2.2.2 h

theorem tryDob_some {l m r} (h : tryDob l = some (m, r)) :
    l = m ++ r ∧ m ≠ [] ∧ nlEnd r ∧ ciPre "dob:".data l := by
  unfold tryDob at h
  cases h1 : leadCI "dob:".data l with
  | none => simp [h1] at h
  | some p1 =>
    obtain ⟨m1, r1⟩ := p1
    simp only [h1] at h
    cases h2 : spanP isSpaceCh r1 with
    | mk m2 r2 =>
      simp only [h2] at h
      cases h3 : spanP (fun c => !(c == '\n')) r2 with
      | mk m3 r3 =>
        simp only [h3] at h
        obtain ⟨hm, hr⟩ := Prod.mk.injEq .. ▸ Option.some.inj h
        subst hm; subst hr
        obtain ⟨hs1, hci⟩ := leadCI_some h1
        obtain ⟨hs2, -, -⟩ := spanP_some h2
        obtain ⟨hs3, -, hr3⟩ := spanP_some h3
        refine ⟨by rw [hs1, hs2, hs3]; simp, ?_, ?_, m1, r1, hs1, hci⟩
        · intro hcon
          have : m1 = [] := by
            cases m1 with
            | nil => rfl
            | cons a as => simp at hcon
          subst this
          simp at hci
        · cases hr3eq : r3 with
          | nil => exact Or.inl rfl
          | cons c cs =>
            right
            refine ⟨cs, ?_⟩
            have hc := hr3 c (by rw [hr3eq]; rfl)
            simp only [Bool.not_eq_false'] at hc
            rw [beq_iff_eq.mp hc]

theorem tryDob_none {l} (h : ¬ ciPre "dob:".data l) : tryDob l = none := by
  cases ht : tryDob l with
  | none => rfl
  | some p =>
    obtain ⟨m, r⟩ := p
    exact absurd (tryDob_some ht).2.2.2 h

theorem tryName_block {w} (hw : nlEnd w) : tryName (NAMEB ++ w) = some (NAMEB, w) := by
  rcases hw with hw | ⟨w', hw⟩ <;> subst hw <;> rfl

theorem tryDob_block {w} (hw : nlEnd w) : tryDob (DOBB ++ w) = some (DOBB, w) := by
  rcases hw with hw | ⟨w', hw⟩ <;> subst hw <;> rfl

/-- The invariant carried by already-scrubbed text for a line rule: every
case-insensitive occurrence of the pattern heads an exact replacement
block that runs to a newline or the end. -/
def BlockInv (P B s : List Char) : Prop :=
  ∀ u v, s = u ++ v → ciPre P v → ∃ w, v = B ++ w ∧ nlEnd w

theorem selfRepl_of_blockInv_name {s : List Char}
    (h : BlockInv "name:".data NAMEB s) (prev0 : Option Char) :
    SelfRepl (fun _ l => tryName l) NAMEB prev0 s := by
  intro u v m r hdec hm
  obtain ⟨-, -, -, hci⟩ := tryName_some hm
  obtain ⟨w, hv, hw⟩ := h u v hdec hci
  subst hv
  have hm' : tryName (NAMEB ++ w) = some (m, r) := hm
  rw [tryName_block hw] at hm'
  exact ((Prod.mk.injEq .. ▸ Option.some.inj hm').1).symm

theorem selfRepl_of_blockInv_dob {s : List Char}
    (h : BlockInv "dob:".data DOBB s) (prev0 : Option Char) :
    SelfRepl (fun _ l => tryDob l) DOBB prev0 s := by
  intro u v m r hdec hm
  obtain ⟨-, -, -, hci⟩ := tryDob_some hm
  obtain ⟨w, hv, hw⟩ := h u v hdec hci
  subst hv
  have hm' : tryDob (DOBB ++ w) = some (m, r) := hm
  rw [tryDob_block hw] at hm'
  exact ((Prod.mk.injEq .. ▸ Option.some.inj hm').1).symm

/-- No match at all gives self-replacement vacuously. -/
def NoM (N : Matcher) (prev : Option Char) (s : List Char) : Prop :=
  ∀ u v, s = u ++ v → N (ctx prev u) v = none

theorem selfRepl_of_noM {N : Matcher} {R : List Char} {prev s}
    (h : NoM N prev s) : SelfRepl N R prev s := by
  intro u v m r hdec hm
  rw [h u v hdec] at hm
  exact absurd hm (by simp)

/-! ### Transport of class-pure prefixes through a pass -/

theorem chunk_prefix_transport {M : Matcher} {R : List Char} {CN : Char → Bool}
    (hRne : R ≠ [])
    (hRhead : ∀ c, R.head? = some c → CN c = false)
    (hMstart : ∀ prev l m r, M prev l = some (m, r) → noWord prev = true)
    {prev l out} (hch : Chunks M R prev l out) :
    ∀ m w, out = m ++ w → m ≠ [] → (∀ c ∈ m, CN c = true) →
      (∀ e, m.getLast? = some e → isWordCh e = true) →
      noWord w.head? = true →
      ∃ wl, l = m ++ wl ∧ noWord wl.head? = true := by
  induction hch with
  | nil prev =>
    intro m w hdec hne _ _ _
    exact absurd (List.append_eq_nil.mp hdec.symm).1 hne
  | keep prev c cs out hnone hch' ih =>
    intro m w hdec hne hcls hlast hw
    cases m with
    | nil => exact absurd rfl hne
    | cons mc m' =>
      have hpair : c = mc ∧ out = m' ++ w := by
        simpa using hdec
      obtain ⟨hmc, hout⟩ := hpair
      subst hmc
      cases m' with
      | nil =>
        simp only [List.nil_append] at hout
        subst hout
        refine ⟨cs, by simp, ?_⟩
        cases hch' with
        | nil => simpa using hw
        | keep prev2 c2 cs2 out2 hnone2 hch2 => simpa using hw
        | repl prev2 m2 r2 out2 hM2 hne2 hch2 =>
          exfalso
          have hcw : isWordCh c = true := hlast c rfl
          have := hMstart _ _ _ _ hM2
          simp only [noWord, Bool.not_eq_true'] at this
          rw [hcw] at this
          exact absurd this (by simp)
      | cons c2 m'' =>
        obtain ⟨wl, hcs, hwl⟩ := ih (c2 :: m'') w hout (by simp)
          (fun x hx => hcls x (List.mem_cons_of_mem c hx))
          (by
            intro e he
            apply hlast e
            rwa [List.getLast?_cons_cons])
          hw
        exact ⟨wl, by rw [hcs]; rfl, hwl⟩
  | repl prev m0 r0 out hM0 hne0 hch' ih =>
    intro m w hdec hne hcls _ _
    exfalso
    cases hR : R with
    | nil => exact absurd hR hRne
    | cons rc R' =>
      cases m with
      | nil => exact absurd rfl hne
      | cons mc m' =>
        rw [hR] at hdec
        have : rc = mc := by
          have h2 : rc :: (R' ++ out) = mc :: (m' ++ w) := by simpa using hdec
          exact (List.cons.injEq .. ▸ h2).1
        have hcn : CN mc = true := hcls mc (List.mem_cons_self mc m')
        have hcf : CN rc = false := hRhead rc (by rw [hR]; rfl)
        rw [this] at hcf
        rw [hcn] at hcf
        exact absurd hcf (by simp)

/-! ### Generic no-match preservation and self-clearing theorems -/

section NoMatchTheory

variable {N : Matcher} {shapeN : List Char → Prop} {CN : Char → Bool}

theorem noM_nil
    (hN_some : ∀ prev l m r, N prev l = some (m, r) →
      l = m ++ r ∧ shapeN m ∧ noWord prev = true ∧ noWord r.head? = true)
    (hshape_ne : ∀ m, shapeN m → m ≠ [])
    (prev : Option Char) : N prev [] = none := by
  cases h : N prev [] with
  | none => rfl
  | some p =>
    obtain ⟨m, r⟩ := p
    obtain ⟨hsplit, hsh, -, -⟩ := hN_some _ _ _ _ h
    exact absurd (List.append_eq_nil.mp hsplit.symm).1 (hshape_ne m hsh)

theorem keep_head_none
    (hN_some : ∀ prev l m r, N prev l = some (m, r) →
      l = m ++ r ∧ shapeN m ∧ noWord prev = true ∧ noWord r.head? = true)
    (hN_comp : ∀ prev m r, noWord prev = true → shapeN m →
      noWord r.head? = true → N prev (m ++ r) ≠ none)
    (hshape_ne : ∀ m, shapeN m → m ≠ [])
    (hshape_cls : ∀ m, shapeN m → ∀ c ∈ m, CN c = true)
    (hshape_head : ∀ m c, shapeN m → m.head? = some c → isWordCh c = true)
    (hshape_last : ∀ m c, shapeN m → m.getLast? = some c → isWordCh c = true)
    {M : Matcher} {R : List Char}
    (hMstart : ∀ prev l m r, M prev l = some (m, r) → noWord prev = true)
    (hRne : R ≠ [])
    (hRheadCN : ∀ c, R.head? = some c → CN c = false)
    {prev : Option Char} {c : Char} {cs out : List Char}
    (hnoneM : M prev (c :: cs) = none)
    (hch' : Chunks M R (some c) cs out)
    (hnoneL : N prev (c :: cs) = none)
    (prev_out : Option Char)
    (hrel : noWord prev = noWord prev_out ∨ isWordCh c = false) :
    N prev_out (c :: out) = none := by
  cases hN : N prev_out (c :: out) with
  | none => rfl
  | some p =>
    exfalso
    obtain ⟨m, w⟩ := p
    obtain ⟨hsplit, hsh, hpo, hwb⟩ := hN_some _ _ _ _ hN
    have hmne : m ≠ [] := hshape_ne m hsh
    have hmhead : m.head? = some c := by
      cases m with
      | nil => exact absurd rfl hmne
      | cons mc m' =>
        have hpair : c = mc ∧ out = m' ++ w := by simpa using hsplit
        rw [hpair.1]
        rfl
    rcases hrel with heq | hnw
    · obtain ⟨wl, hleq, hwl⟩ := chunk_prefix_transport hRne hRheadCN hMstart
        (Chunks.keep prev c cs out hnoneM hch') m w hsplit hmne
        (hshape_cls m hsh) (fun e he => hshape_last m e hsh he) hwb
      have : N prev (c :: cs) ≠ none := by
        rw [hleq]
        exact hN_comp prev m wl (by rw [heq, ← hpo]) hsh hwl
      exact this hnoneL
    · have := hshape_head m c hsh hmhead
      rw [hnw] at this
      exact absurd this (by simp)

theorem noM_preserved
    (hN_some : ∀ prev l m r, N prev l = some (m, r) →
      l = m ++ r ∧ shapeN m ∧ noWord prev = true ∧ noWord r.head? = true)
    (hN_comp : ∀ prev m r, noWord prev = true → shapeN m →
      noWord r.head? = true → N prev (m ++ r) ≠ none)
    (hshape_ne : ∀ m, shapeN m → m ≠ [])
    (hshape_cls : ∀ m, shapeN m → ∀ c ∈ m, CN c = true)
    (hshape_head : ∀ m c, shapeN m → m.head? = some c → isWordCh c = true)
    (hshape_last : ∀ m c, shapeN m → m.getLast? = some c → isWordCh c = true)
    {M : Matcher} {R : List Char}
    (hMstart : ∀ prev l m r, M prev l = some (m, r) → noWord prev = true)
    (hMend : ∀ prev l m r, M prev l = some (m, r) → noWord r.head? = true)
    (hRne : R ≠ [])
    (hRheadCN : ∀ c, R.head? = some c → CN c = false)
    (hRdead : ∀ u v, R = u ++ v → v ≠ [] → ∀ prev tail, N prev (v ++ tail) = none)
    {prev : Option Char} {l out : List Char} (hch : Chunks M R prev l out) :
    ∀ prev_out,
      (noWord prev = noWord prev_out ∨ ∀ c0, l.head? = some c0 → isWordCh c0 = false) →
      NoM N prev l → NoM N prev_out out := by
  induction hch with
  | nil prev =>
    intro prev_out _ _ u v hdec
    obtain ⟨hu, hv⟩ := List.append_eq_nil.mp hdec.symm
    subst hv
    exact noM_nil hN_some hshape_ne _
  | keep prev c cs out hnone hch' ih =>
    intro prev_out hrel hl u v hdec
    cases u with
    | nil =>
      simp only [List.nil_append] at hdec
      subst hdec
      refine keep_head_none hN_some hN_comp hshape_ne hshape_cls hshape_head
        hshape_last hMstart hRne hRheadCN hnone hch' (hl [] (c :: cs) rfl) prev_out ?_
      rcases hrel with heq | hhead
      · exact Or.inl heq
      · exact Or.inr (hhead c rfl)
    | cons c0 u' =>
      have hpair : c = c0 ∧ out = u' ++ v := by simpa using hdec
      obtain ⟨hc0, hout⟩ := hpair
      subst hc0
      show N (ctx (some c) u') v = none
      exact ih (some c) (Or.inl rfl)
        (fun u2 v2 hd => hl (c :: u2) v2 (by rw [hd]; rfl)) u' v hout
  | repl prev m0 r0 out hM0 hne0 hch' ih =>
    intro prev_out hrel hl u v hdec
    have hshift : NoM N (ctx prev m0) r0 := by
      intro u2 v2 hd
      have := hl (m0 ++ u2) v2 (by rw [hd, List.append_assoc])
      rwa [ctx_append] at this
    have hrel' : noWord (ctx prev m0) = noWord (ctx prev_out R) ∨
        ∀ c0, r0.head? = some c0 → isWordCh c0 = false := by
      right
      intro c0 hc0
      have := hMend _ _ _ _ hM0
      rw [hc0] at this
      simpa [noWord] using this
    rcases List.append_eq_append_iff.mp hdec.symm with ⟨a, ha1, ha2⟩ | ⟨a, ha1, ha2⟩
    · cases a with
      | nil =>
        simp only [List.append_nil] at ha1
        simp only [List.nil_append] at ha2
        subst ha2
        rw [← ha1]
        exact ih (ctx prev_out R) hrel' hshift [] _ (by simp)
      | cons ac a' =>
        subst ha2
        exact hRdead u (ac :: a') ha1 (by simp) (ctx prev_out u) out
    · rw [ha1, ctx_append]
      exact ih (ctx prev_out R) hrel' hshift a v ha2

theorem noM_selfclear
    (hN_some : ∀ prev l m r, N prev l = some (m, r) →
      l = m ++ r ∧ shapeN m ∧ noWord prev = true ∧ noWord r.head? = true)
    (hN_comp : ∀ prev m r, noWord prev = true → shapeN m →
      noWord r.head? = true → N prev (m ++ r) ≠ none)
    (hshape_ne : ∀ m, shapeN m → m ≠ [])
    (hshape_cls : ∀ m, shapeN m → ∀ c ∈ m, CN c = true)
    (hshape_head : ∀ m c, shapeN m → m.head? = some c → isWordCh c = true)
    (hshape_last : ∀ m c, shapeN m → m.getLast? = some c → isWordCh c = true)
    {R : List Char}
    (hRne : R ≠ [])
    (hRheadCN : ∀ c, R.head? = some c → CN c = false)
    (hRdead : ∀ u v, R = u ++ v → v ≠ [] → ∀ prev tail, N prev (v ++ tail) = none)
    {prev : Option Char} {l out : List Char} (hch : Chunks N R prev l out) :
    ∀ prev_out,
      (noWord prev = noWord prev_out ∨ ∀ c0, l.head? = some c0 → isWordCh c0 = false) →
      NoM N prev_out out := by
  have hNstart : ∀ prev l m r, N prev l = some (m, r) → noWord prev = true :=
    fun prev l m r h => (hN_some _ _ _ _ h).2.2.1
  have hNend : ∀ prev l m r, N prev l = some (m, r) → noWord r.head? = true :=
    fun prev l m r h => (hN_some _ _ _ _ h).2.2.2
  induction hch with
  | nil prev =>
    intro prev_out _ u v hdec
    obtain ⟨hu, hv⟩ := List.append_eq_nil.mp hdec.symm
    subst hv
    exact noM_nil hN_some hshape_ne _
  | keep prev c cs out hnone hch' ih =>
    intro prev_out hrel u v hdec
    cases u with
    | nil =>
      simp only [List.nil_append] at hdec
      subst hdec
      refine keep_head_none hN_some hN_comp hshape_ne hshape_cls hshape_head
        hshape_last hNstart hRne hRheadCN hnone hch' hnone prev_out ?_
      rcases hrel with heq | hhead
      · exact Or.inl heq
      · exact Or.inr (hhead c rfl)
    | cons c0 u' =>
      have hpair : c = c0 ∧ out = u' ++ v := by simpa using hdec
      obtain ⟨hc0, hout⟩ := hpair
      subst hc0
      show N (ctx (some c) u') v = none
      exact ih (some c) (Or.inl rfl) u' v hout
  | repl prev m0 r0 out hM0 hne0 hch' ih =>
    intro prev_out hrel u v hdec
    have hrel' : noWord (ctx prev m0) = noWord (ctx prev_out R) ∨
        ∀ c0, r0.head? = some c0 → isWordCh c0 = false := by
      right
      intro c0 hc0
      have := hNend _ _ _ _ hM0
      rw [hc0] at this
      simpa [noWord] using this
    rcases List.append_eq_append_iff.mp hdec.symm with ⟨a, ha1, ha2⟩ | ⟨a, ha1, ha2⟩
    · cases a with
      | nil =>
        simp only [List.append_nil] at ha1
        simp only [List.nil_append] at ha2
        subst ha2
        rw [← ha1]
        exact ih (ctx prev_out R) hrel' [] _ (by simp)
      | cons ac a' =>
        subst ha2
        exact hRdead u (ac :: a') ha1 (by simp) (ctx prev_out u) out
    · rw [ha1, ctx_append]
      exact ih (ctx prev_out R) hrel' a v ha2

end NoMatchTheory

/-! ### Class and boundary facts for the three shapes -/

/-- The characters an NHS-number match can contain. -/
def nhsCls (c : Char) : Bool := isDigitCh c || isSpaceCh c

/-- The characters a postcode match can contain. -/
def pcCls (c : Char) : Bool := isUpperCh c || isDigitCh c || isSpaceCh c

theorem digitRun_ne {n m} (hn : n ≠ 0) (h : digitRun n m) : m ≠ [] := by
  intro hc
  subst hc
  exact hn h.1.symm

theorem nhsShape_ne {m} (h : nhsShape m) : m ≠ [] := by
  obtain ⟨d1, s1, d2, s2, d3, hm, h1, -, -, -, -⟩ := h
  subst hm
  intro hc
  obtain ⟨hd1, -⟩ := List.append_eq_nil.mp hc
  exact digitRun_ne (by omega) h1 hd1

theorem nhsShape_cls {m} (h : nhsShape m) : ∀ c ∈ m, nhsCls c = true := by
  obtain ⟨d1, s1, d2, s2, d3, hm, h1, hs1, h2, hs2, h3⟩ := h
  subst hm
  intro c hc
  simp only [List.mem_append] at hc
  unfold nhsCls
  have hsp : ∀ s, optSpace s → c ∈ s → isSpaceCh c = true := by
    intro s hs hcs
    rcases hs with hs | ⟨x, hx, hxs⟩
    · subst hs; simp at hcs
    · subst hx; simp at hcs; subst hcs; exact hxs
  rcases hc with hc | hc | hc | hc | hc
  · rw [h1.2 c hc]; rfl
  · rw [hsp s1 hs1 hc]; simp
  · rw [h2.2 c hc]; rfl
  · rw [hsp s2 hs2 hc]; simp
  · rw [h3.2 c hc]; rfl

theorem nhsShape_head {m c} (h : nhsShape m) (hc : m.head? = some c) :
    isWordCh c = true := by
  obtain ⟨d1, s1, d2, s2, d3, hm, h1, -, -, -, -⟩ := h
  subst hm
  cases hd : d1 with
  | nil => rw [hd] at h1; simp [digitRun] at h1
  | cons a d1' =>
    rw [hd] at hc h1
    simp only [List.cons_append, List.head?_cons, Option.some.injEq] at hc
    subst hc
    exact word_of_digit (h1.2 a (List.mem_cons_self a d1'))

theorem nhsShape_last {m c} (h : nhsShape m) (hc : m.getLast? = some c) :
    isWordCh c = true := by
  obtain ⟨d1, s1, d2, s2, d3, hm, -, -, -, -, h3⟩ := h
  subst hm
  have hd3ne : d3 ≠ [] := digitRun_ne (by omega) h3
  rw [List.getLast?_append_of_ne_nil _ (by simp [hd3ne]),
    List.getLast?_append_of_ne_nil _ (by simp [hd3ne]),
    List.getLast?_append_of_ne_nil _ (by simp [hd3ne]),
    List.getLast?_append_of_ne_nil _ hd3ne] at hc
  have hmem : c ∈ d3 := List.mem_of_mem_getLast? (by rw [Option.mem_def]; exact hc)
  exact word_of_digit (h3.2 c hmem)

theorem pcShape_ne {m} (h : pcShape m) : m ≠ [] := by
  obtain ⟨us, d1, o, ws, d2, u2, hm, hlen, -, -, -, -, -, -, -⟩ := h
  subst hm
  intro hc
  obtain ⟨hus, -⟩ := List.append_eq_nil.mp hc
  subst hus
  simp at hlen

theorem pcShape_cls {m} (h : pcShape m) : ∀ c ∈ m, pcCls c = true := by
  obtain ⟨us, d1, o, ws, d2, u2, hm, hlen, hua, hd1, ho, hws, hd2, hu2, hua2⟩ := h
  subst hm
  intro c hc
  simp only [List.mem_append] at hc
  unfold pcCls
  rcases hc with hc | hc | hc | hc | hc | hc
  · rw [hua c hc]; simp
  · rw [hd1.2 c hc]; simp
  · rcases ho with ho | ⟨x, hx, hxud⟩
    · subst ho; simp at hc
    · subst hx; simp at hc; subst hc
      rcases Bool.or_eq_true .. ▸ hxud with h | h
      · rw [h]; simp
      · rw [h]; simp
  · rw [hws c hc]; simp
  · rw [hd2.2 c hc]; simp
  · rw [hua2 c hc]; simp

theorem pcShape_head {m c} (h : pcShape m) (hc : m.head? = some c) :
    isWordCh c = true := by
  obtain ⟨us, d1, o, ws, d2, u2, hm, hlen, hua, -, -, -, -, -, -⟩ := h
  subst hm
  cases hus : us with
  | nil => rw [hus] at hlen; simp at hlen
  | cons a us' =>
    rw [hus] at hc hua
    simp only [List.cons_append, List.head?_cons, Option.some.injEq] at hc
    subst hc
    exact word_of_upper (hua a (List.mem_cons_self a us'))

theorem pcShape_last {m c} (h : pcShape m) (hc : m.getLast? = some c) :
    isWordCh c = true := by
  obtain ⟨us, d1, o, ws, d2, u2, hm, -, -, -, -, -, -, hu2, hua2⟩ := h
  subst hm
  have hu2ne : u2 ≠ [] := by
    intro hcon
    subst hcon
    simp at hu2
  rw [List.getLast?_append_of_ne_nil _ (by simp [hu2ne]),
    List.getLast?_append_of_ne_nil _ (by simp [hu2ne]),
    List.getLast?_append_of_ne_nil _ (by simp [hu2ne]),
    List.getLast?_append_of_ne_nil _ (by simp [hu2ne]),
    List.getLast?_append_of_ne_nil _ hu2ne] at hc
  have hmem : c ∈ u2 := List.mem_of_mem_getLast? (by rw [Option.mem_def]; exact hc)
  exact word_of_upper (hua2 c hmem)

theorem phoneShape_ne {m} (h : phoneShape m) : m ≠ [] := by
  obtain ⟨ds, hm, -, -⟩ := h
  subst hm
  simp

theorem phoneShape_cls {m} (h : phoneShape m) : ∀ c ∈ m, isDigitCh c = true := by
  obtain ⟨ds, hm, -, hall⟩ := h
  subst hm
  intro c hc
  rcases List.mem_cons.mp hc with hc | hc
  · subst hc; decide
  · exact hall c hc

theorem phoneShape_head {m c} (h : phoneShape m) (hc : m.head? = some c) :
    isWordCh c = true := by
  obtain ⟨ds, hm, -, -⟩ := h
  subst hm
  simp only [List.head?_cons, Option.some.injEq] at hc
  subst hc
  decide

theorem phoneShape_last {m c} (h : phoneShape m) (hc : m.getLast? = some c) :
    isWordCh c = true := by
  have := phoneShape_cls h
  have hmem : c ∈ m := List.mem_of_mem_getLast? (by rw [Option.mem_def]; exact hc)
  exact word_of_digit (this c hmem)

/-! ### Spanning instances for the five pass matchers -/

theorem spanning_tryName : Spanning (fun _ l => tryName l) :=
  fun _ _ _ _ h => ⟨(tryName_some h).1, (tryName_some h).2.1⟩

theorem spanning_tryDob : Spanning (fun _ l => tryDob l) :=
  fun _ _ _ _ h => ⟨(tryDob_some h).1, (tryDob_some h).2.1⟩

theorem spanning_tryNHS : Spanning tryNHS :=
  fun _ _ _ _ h => ⟨(tryNHS_some h).1, nhsShape_ne (tryNHS_some h).2.1⟩

theorem spanning_tryPC : Spanning tryPC :=
  fun _ _ _ _ h => ⟨(tryPC_some h).1, pcShape_ne (tryPC_some h).2.1⟩

theorem spanning_tryPhone : Spanning tryPhone :=
  fun _ _ _ _ h => ⟨(tryPhone_some h).1, phoneShape_ne (tryPhone_some h).2.1⟩

/-! ### Positions at which a matcher fails regardless of what follows -/

theorem leadN_head_none {p : Char → Bool} {c : Char} {cs : List Char}
    (hc : p c = false) : ∀ n, leadN p (n + 1) (c :: cs) = none := by
  intro n
  unfold leadN
  simp [hc]

theorem tryNHS_none_head {prev c cs} (hc : isDigitCh c = false) :
    tryNHS prev (c :: cs) = none := by
  unfold tryNHS
  cases hp : noWord prev with
  | false => simp [hp]
  | true =>
    rw [if_pos rfl]
    have e : leadN isDigitCh 3 (c :: cs) = none := leadN_head_none hc 2
    rw [e]

theorem tryPhone_none_head {prev c cs} (hc : (c == '0') = false) :
    tryPhone prev (c :: cs) = none := by
  unfold tryPhone
  cases hp : noWord prev with
  | false => simp [hp]
  | true => rw [if_pos rfl]; simp [hc]

theorem tryPC_none_head {prev c cs} (hc : isUpperCh c = false) :
    tryPC prev (c :: cs) = none := by
  unfold tryPC
  cases hp : noWord prev with
  | false => simp [hp]
  | true => rw [if_pos rfl, leadN_one_none hc]

theorem pcAfterLetters_none_head {c cs} (hc : isDigitCh c = false) :
    pcAfterLetters (c :: cs) = none := by
  unfold pcAfterLetters
  rw [leadN_one_none hc]

/-- The postcode matcher dies within the first three characters whenever
the second is not a digit and either the second is not upper-case or the
third is not a digit (both greedy branches need a digit there). -/
theorem tryPC_none_three {prev : Option Char} {c1 c2 c3 : Char} {cs : List Char}
    (h2 : isDigitCh c2 = false) (h3 : isUpperCh c2 = false ∨ isDigitCh c3 = false) :
    tryPC prev (c1 :: c2 :: c3 :: cs) = none := by
  unfold tryPC
  cases hp : noWord prev with
  | false => simp [hp]
  | true =>
    rw [if_pos rfl]
    cases hu1 : isUpperCh c1 with
    | false => rw [leadN_one_none hu1]
    | true =>
      have e1 : leadN isUpperCh 1 (c1 :: c2 :: c3 :: cs) = some ([c1], c2 :: c3 :: cs) :=
        leadN_complete (p := isUpperCh) (m := [c1]) rfl (by simp [hu1]) (c2 :: c3 :: cs)
      have e4 : pcAfterLetters (c2 :: c3 :: cs) = none := pcAfterLetters_none_head h2
      cases hu2 : isUpperCh c2 with
      | false =>
        have e2 : leadN isUpperCh 1 (c2 :: c3 :: cs) = none := leadN_one_none hu2
        simp only [e1, e2, e4]
      | true =>
        rcases h3 with h3 | h3
        · rw [h3] at hu2; exact absurd hu2 (by simp)
        · have e2 : leadN isUpperCh 1 (c2 :: c3 :: cs) = some ([c2], c3 :: cs) :=
            leadN_complete (p := isUpperCh) (m := [c2]) rfl (by simp [hu2]) (c3 :: cs)
          have e3 : pcAfterLetters (c3 :: cs) = none := pcAfterLetters_none_head h3
          simp only [e1, e2, e3, e4]

/-! ### Case-insensitive prefix facts -/

theorem ciPre_head {P : List Char} {c cs} (hP : P ≠ []) (h : ciPre P (c :: cs)) :
    P.head? = some (lowerCh c) := by
  obtain ⟨m, w, hdec, hm⟩ := h
  cases m with
  | nil => rw [← hm] at hP; exact absurd rfl hP
  | cons a m' =>
    have ha : c = a := by
      have h2 : c :: cs = a :: (m' ++ w) := by simpa using hdec
      exact (List.cons.injEq .. ▸ h2).1
    subst ha
    rw [← hm]
    rfl

theorem ciPre_take {P l : List Char} (h : ciPre P l) :
    (l.take P.length).map lowerCh = P := by
  obtain ⟨m, w, hdec, hm⟩ := h
  subst hdec
  have hlen : m.length = P.length := by rw [← hm]; simp
  rw [← hlen, List.take_left, hm]

theorem take_append_small {R tail : List Char} {n : Nat} (h : n ≤ R.length) :
    (R ++ tail).take n = R.take n := by
  rw [List.take_append_eq_append_take, Nat.sub_eq_zero_of_le h, List.take_zero,
    List.append_nil]

theorem ciPre_long {P v tail : List Char} (hge : P.length ≤ v.length)
    (h : ciPre P (v ++ tail)) : (v.take P.length).map lowerCh = P := by
  have h5 := ciPre_take h
  rwa [take_append_small hge] at h5

theorem ciPre_short {P v tail : List Char} (hlt : v.length < P.length)
    (h : ciPre P (v ++ tail)) : v.map lowerCh = P.take v.length := by
  have h5 := ciPre_take h
  rw [List.take_append_eq_append_take, List.take_of_length_le (Nat.le_of_lt hlt)] at h5
  have h6 := congrArg (List.take v.length) h5
  rw [List.map_append, List.take_append_eq_append_take, List.length_map,
    Nat.sub_self, List.take_zero, List.append_nil,
    List.take_of_length_le (by rw [List.length_map])] at h6
  exact h6

/-- No case-insensitive occurrence of `P` can begin strictly inside `R`
(or anywhere inside, when the checks include offset 0), whatever follows:
every suffix of `R` disagrees with `P` within `R` itself. -/
theorem ciInside_dead {P R : List Char}
    (hchk : ∀ k, k < R.length →
      ((R.drop k).take P.length).map lowerCh ≠ P ∧
      (R.drop k).map lowerCh ≠ P.take (R.drop k).length) :
    ∀ u v, R = u ++ v → v ≠ [] → ∀ tail, ¬ ciPre P (v ++ tail) := by
  intro u v hdec hne tail hci
  have hklt : u.length < R.length := by
    have hl := congrArg List.length hdec
    rw [List.length_append] at hl
    have hv : 0 < v.length := List.length_pos.mpr hne
    omega
  have hveq : v = R.drop u.length := by rw [hdec, List.drop_left]
  rcases le_or_lt P.length v.length with hge | hlt
  · exact (hchk u.length hklt).1 (by rw [← hveq]; exact ciPre_long hge hci)
  · exact (hchk u.length hklt).2 (by rw [← hveq]; exact ciPre_short hlt hci)

/-- Variant restricted to proper suffixes (`u ≠ []`), for the pass whose
replacement block itself begins with a case-insensitive match of `P`. -/
theorem ciInside_dead_proper {P R : List Char}
    (hchk : ∀ k, 1 ≤ k → k < R.length →
      ((R.drop k).take P.length).map lowerCh ≠ P ∧
      (R.drop k).map lowerCh ≠ P.take (R.drop k).length) :
    ∀ u v, R = u ++ v → u ≠ [] → v ≠ [] → ∀ tail, ¬ ciPre P (v ++ tail) := by
  intro u v hdec hu hne tail hci
  have hk1 : 1 ≤ u.length := List.length_pos.mpr hu
  have hklt : u.length < R.length := by
    have hl := congrArg List.length hdec
    rw [List.length_append] at hl
    have hv : 0 < v.length := List.length_pos.mpr hne
    omega
  have hveq : v = R.drop u.length := by rw [hdec, List.drop_left]
  rcases le_or_lt P.length v.length with hge | hlt
  · exact (hchk u.length hk1 hklt).1 (by rw [← hveq]; exact ciPre_long hge hci)
  · exact (hchk u.length hk1 hklt).2 (by rw [← hveq]; exact ciPre_short hlt hci)

/-- A case-insensitive occurrence of `P` cannot straddle into `R`: no
proper nonempty tail of `P` agrees with the start of `R`. -/
theorem ciStraddle_dead {P R : List Char} (hlen : P.length ≤ R.length)
    (hchk : ∀ k, 1 ≤ k → k < P.length →
      (R.take (P.length - k)).map lowerCh ≠ P.drop k) :
    ∀ p1 p2, P = p1 ++ p2 → p1 ≠ [] → p2 ≠ [] → ∀ tail,
      ((R ++ tail).take p2.length).map lowerCh ≠ p2 := by
  intro p1 p2 hdec h1 h2 tail hcon
  have hp2 : p2 = P.drop p1.length := by rw [hdec, List.drop_left]
  have hl := congrArg List.length hdec
  rw [List.length_append] at hl
  have hp1pos : 0 < p1.length := List.length_pos.mpr h1
  have hp2pos : 0 < p2.length := List.length_pos.mpr h2
  have hp2len : p2.length = P.length - p1.length := by omega
  rw [take_append_small (by omega)] at hcon
  rw [hp2len] at hcon
  rw [hp2] at hcon
  exact hchk p1.length hp1pos (by omega) hcon
/-! ### The three placeholder replacement strings -/

/-- Replacement for the NHS-number rule. -/
def NHSR : List Char := "<<NHS_NUMBER>>".data

/-- Replacement for the postcode rule. -/
def PCR : List Char := "<<POSTCODE>>".data

/-- Replacement for the phone-number rule. -/
def PHR : List Char := "<<PHONE_NUMBER>>".data

/-! ### Dead-string lemmas: matchers that cannot start anywhere inside a
given string, whatever context precedes and whatever text follows -/

theorem tryNHS_dead_chars {B : List Char} (hB : ∀ c ∈ B, isDigitCh c = false) :
    ∀ u v, B = u ++ v → v ≠ [] → ∀ prev tail, tryNHS prev (v ++ tail) = none := by
  intro u v hdec hne prev tail
  cases v with
  | nil => exact absurd rfl hne
  | cons c cs => exact tryNHS_none_head (hB c (by rw [hdec]; simp))

theorem tryPhone_dead_chars {B : List Char} (hB : ∀ c ∈ B, (c == '0') = false) :
    ∀ u v, B = u ++ v → v ≠ [] → ∀ prev tail, tryPhone prev (v ++ tail) = none := by
  intro u v hdec hne prev tail
  cases v with
  | nil => exact absurd rfl hne
  | cons c cs => exact tryPhone_none_head (hB c (by rw [hdec]; simp))

theorem tryName_none_head {c cs} (hc : lowerCh c ≠ 'n') : tryName (c :: cs) = none := by
  apply tryName_none
  intro hci
  have h := ciPre_head (by decide) hci
  rw [show ("name:".data).head? = some 'n' from rfl] at h
  exact hc (Option.some.inj h).symm

theorem tryDob_none_head {c cs} (hc : lowerCh c ≠ 'd') : tryDob (c :: cs) = none := by
  apply tryDob_none
  intro hci
  have h := ciPre_head (by decide) hci
  rw [show ("dob:".data).head? = some 'd' from rfl] at h
  exact hc (Option.some.inj h).symm

theorem tryDob_dead_chars {B : List Char} (hB : ∀ c ∈ B, lowerCh c ≠ 'd') :
    ∀ u v, B = u ++ v → v ≠ [] → ∀ tail, tryDob (v ++ tail) = none := by
  intro u v hdec hne tail
  cases v with
  | nil => exact absurd rfl hne
  | cons c cs => exact tryDob_none_head (hB c (by rw [hdec]; simp))

theorem tryName_nl (tail : List Char) : tryName ('\n' :: tail) = none :=
  tryName_none_head (by decide)

theorem tryDob_nl (tail : List Char) : tryDob ('\n' :: tail) = none :=
  tryDob_none_head (by decide)

theorem tryNHS_nl (prev : Option Char) (tail : List Char) :
    tryNHS prev ('\n' :: tail) = none := tryNHS_none_head (by decide)

theorem tryPC_nl (prev : Option Char) (tail : List Char) :
    tryPC prev ('\n' :: tail) = none := tryPC_none_head (by decide)

theorem tryPhone_nl (prev : Option Char) (tail : List Char) :
    tryPhone prev ('\n' :: tail) = none := tryPhone_none_head (by decide)

theorem tryPC_dead_NAMEB :
    ∀ u v, NAMEB = u ++ v → v ≠ [] → ∀ prev tail, tryPC prev (v ++ tail) = none := by
  intro u v hdec hne prev tail
  have h22 : NAMEB.length = 22 := by decide
  have hklt : u.length < 22 := by
    have hl := congrArg List.length hdec
    rw [List.length_append] at hl
    have hv : 0 < v.length := List.length_pos.mpr hne
    omega
  have hveq : v = NAMEB.drop u.length := by rw [hdec, List.drop_left]
  obtain ⟨k, hk, hv⟩ : ∃ k, k < 22 ∧ v = NAMEB.drop k := ⟨u.length, hklt, hveq⟩
  subst hv
  interval_cases k <;>
    first
      | exact tryPC_none_head (by decide)
      | exact tryPC_none_three (by decide) (by decide)

theorem tryPC_dead_DOBB :
    ∀ u v, DOBB = u ++ v → v ≠ [] → ∀ prev tail, tryPC prev (v ++ tail) = none := by
  intro u v hdec hne prev tail
  have h12 : DOBB.length = 12 := by decide
  have hklt : u.length < 12 := by
    have hl := congrArg List.length hdec
    rw [List.length_append] at hl
    have hv : 0 < v.length := List.length_pos.mpr hne
    omega
  have hveq : v = DOBB.drop u.length := by rw [hdec, List.drop_left]
  obtain ⟨k, hk, hv⟩ : ∃ k, k < 12 ∧ v = DOBB.drop k := ⟨u.length, hklt, hveq⟩
  subst hv
  interval_cases k <;>
    first
      | exact tryPC_none_head (by decide)
      | exact tryPC_none_three (by decide) (by decide)

theorem tryPC_dead_NHSR :
    ∀ u v, NHSR = u ++ v → v ≠ [] → ∀ prev tail, tryPC prev (v ++ tail) = none := by
  intro u v hdec hne prev tail
  have h14 : NHSR.length = 14 := by decide
  have hklt : u.length < 14 := by
    have hl := congrArg List.length hdec
    rw [List.length_append] at hl
    have hv : 0 < v.length := List.length_pos.mpr hne
    omega
  have hveq : v = NHSR.drop u.length := by rw [hdec, List.drop_left]
  obtain ⟨k, hk, hv⟩ : ∃ k, k < 14 ∧ v = NHSR.drop k := ⟨u.length, hklt, hveq⟩
  subst hv
  interval_cases k <;>
    first
      | exact tryPC_none_head (by decide)
      | exact tryPC_none_three (by decide) (by decide)

theorem tryPC_dead_PCR :
    ∀ u v, PCR = u ++ v → v ≠ [] → ∀ prev tail, tryPC prev (v ++ tail) = none := by
  intro u v hdec hne prev tail
  have h12 : PCR.length = 12 := by decide
  have hklt : u.length < 12 := by
    have hl := congrArg List.length hdec
    rw [List.length_append] at hl
    have hv : 0 < v.length := List.length_pos.mpr hne
    omega
  have hveq : v = PCR.drop u.length := by rw [hdec, List.drop_left]
  obtain ⟨k, hk, hv⟩ : ∃ k, k < 12 ∧ v = PCR.drop k := ⟨u.length, hklt, hveq⟩
  subst hv
  interval_cases k <;>
    first
      | exact tryPC_none_head (by decide)
      | exact tryPC_none_three (by decide) (by decide)

theorem tryPC_dead_PHR :
    ∀ u v, PHR = u ++ v → v ≠ [] → ∀ prev tail, tryPC prev (v ++ tail) = none := by
  intro u v hdec hne prev tail
  have h16 : PHR.length = 16 := by decide
  have hklt : u.length < 16 := by
    have hl := congrArg List.length hdec
    rw [List.length_append] at hl
    have hv : 0 < v.length := List.length_pos.mpr hne
    omega
  have hveq : v = PHR.drop u.length := by rw [hdec, List.drop_left]
  obtain ⟨k, hk, hv⟩ : ∃ k, k < 16 ∧ v = PHR.drop k := ⟨u.length, hklt, hveq⟩
  subst hv
  interval_cases k <;>
    first
      | exact tryPC_none_head (by decide)
      | exact tryPC_none_three (by decide) (by decide)

/-! ### Structure of a pass output around an arbitrary position -/

theorem chunks_keep_inv {M : Matcher} {R : List Char} {prev l out}
    (hch : Chunks M R prev l out) (hnone : M prev l = none) :
    (l = [] ∧ out = []) ∨
      ∃ c cs out2, l = c :: cs ∧ out = c :: out2 ∧ Chunks M R (some c) cs out2 := by
  cases hch with
  | nil => exact Or.inl ⟨rfl, rfl⟩
  | keep prev c cs out0 h1 h2 => exact Or.inr ⟨c, cs, out0, rfl, rfl, h2⟩
  | repl prev m0 r0 out0 hM0 hne0 hch' =>
    rw [hnone] at hM0
    exact absurd hM0 (by simp)

theorem chunks_nil_inv {M : Matcher} {R : List Char} {prev l out}
    (hch : Chunks M R prev l out) (hl : l = []) : out = [] := by
  cases hch with
  | nil => rfl
  | keep prev c cs out0 h1 h2 => exact absurd hl (by simp)
  | repl prev m0 r0 out0 hM0 hne0 hch' =>
    obtain ⟨h1, -⟩ := List.append_eq_nil.mp hl
    exact absurd h1 hne0

/-- Cutting a pass output at any position: the cut either falls at a
chunk boundary (the rest of the output is the image of a suffix of the
input under the correct context) or strictly inside an emitted
replacement block. -/
theorem chunks_cut {M : Matcher} {R : List Char} {prev l out}
    (hch : Chunks M R prev l out) :
    ∀ u v, out = u ++ v →
      (∃ lu lv, l = lu ++ lv ∧ Chunks M R (ctx prev lu) lv v) ∨
      (∃ r1 r2 out2, R = r1 ++ r2 ∧ r1 ≠ [] ∧ r2 ≠ [] ∧ v = r2 ++ out2) := by
  induction hch with
  | nil prev =>
    intro u v hdec
    obtain ⟨hu, hv⟩ := List.append_eq_nil.mp hdec.symm
    subst hv
    exact Or.inl ⟨[], [], rfl, Chunks.nil prev⟩
  | keep prev c cs out hnone hch' ih =>
    intro u v hdec
    cases u with
    | nil =>
      simp only [List.nil_append] at hdec
      subst hdec
      exact Or.inl ⟨[], c :: cs, rfl, Chunks.keep prev c cs out hnone hch'⟩
    | cons c0 u' =>
      have hpair : c = c0 ∧ out = u' ++ v := by simpa using hdec
      obtain ⟨hc0, hout⟩ := hpair
      subst hc0
      rcases ih u' v hout with ⟨lu, lv, hl, hsub⟩ | hR
      · exact Or.inl ⟨c :: lu, lv, by rw [hl]; rfl, hsub⟩
      · exact Or.inr hR
  | repl prev m0 r0 out hM0 hne0 hch' ih =>
    intro u v hdec
    rcases List.append_eq_append_iff.mp hdec.symm with ⟨a, ha1, ha2⟩ | ⟨a, ha1, ha2⟩
    · cases a with
      | nil =>
        simp only [List.nil_append] at ha2
        refine Or.inl ⟨m0, r0, rfl, ?_⟩
        rw [ha2]
        exact hch'
      | cons ac a' =>
        cases u with
        | nil =>
          simp only [List.nil_append] at ha1
          refine Or.inl ⟨[], m0 ++ r0, rfl, ?_⟩
          have hv : v = R ++ out := by rw [ha2, ha1]
          rw [hv]
          exact Chunks.repl prev m0 r0 out hM0 hne0 hch'
        | cons u0 u'' =>
          exact Or.inr ⟨u0 :: u'', ac :: a', out, ha1, by simp, by simp, ha2⟩
    · rcases ih a v ha2 with ⟨lu, lv, hl, hsub⟩ | hR
      · refine Or.inl ⟨m0 ++ lu, lv, ?_, ?_⟩
        · rw [hl, List.append_assoc]
        · rw [ctx_append]
          exact hsub
      · exact Or.inr hR

/-- Reading a fixed number of characters from a pass output at a chunk
boundary: either they are all kept characters (so they are literally a
prefix of the input, and the pass continues behind them), or an emitted
replacement block begins somewhere inside them. -/
theorem chunks_kept_split {M : Matcher} {R : List Char} :
    ∀ (m : List Char) {prev l out}, Chunks M R prev l out → ∀ {w}, out = m ++ w →
      (∃ lw, l = m ++ lw ∧ Chunks M R (ctx prev m) lw w ∧
        (m = [] ∨ M prev l = none)) ∨
      (∃ p1 p2 out2, m = p1 ++ p2 ∧ p2 ≠ [] ∧ p2 ++ w = R ++ out2 ∧
        ∃ prev2 m0 r0, M prev2 (m0 ++ r0) = some (m0, r0) ∧ m0 ≠ [] ∧
          Chunks M R (ctx prev2 m0) r0 out2) := by
  intro m
  induction m with
  | nil =>
    intro prev l out hch w hdec
    refine Or.inl ⟨l, rfl, ?_, Or.inl rfl⟩
    have hw : out = w := by simpa using hdec
    rw [← hw]
    exact hch
  | cons c m' ih =>
    intro prev l out hch w hdec
    cases hch with
    | nil => exact absurd hdec (by simp)
    | keep prev c0 cs out0 hnone hch' =>
      have hpair : c0 = c ∧ out0 = m' ++ w := by simpa using hdec
      obtain ⟨hc0, hout0⟩ := hpair
      subst hc0
      rcases ih hch' hout0 with ⟨lw, hl, hsub, -⟩ | ⟨p1, p2, out2, hmp, hp2, hpw, hrest⟩
      · refine Or.inl ⟨lw, by rw [hl]; rfl, ?_, Or.inr hnone⟩
        exact hsub
      · exact Or.inr ⟨c0 :: p1, p2, out2, by rw [hmp]; rfl, hp2, hpw, hrest⟩
    | repl prev m0 r0 out0 hM0 hne0 hch' =>
      exact Or.inr ⟨[], c :: m', out0, rfl, by simp, hdec.symm, prev, m0, r0, hM0, hne0, hch'⟩

/-- A pass walks over a dead block unchanged. -/
theorem chunks_skip_block {M : Matcher} {R : List Char} :
    ∀ (B : List Char),
      (∀ u v, B = u ++ v → v ≠ [] → ∀ prev tail, M prev (v ++ tail) = none) →
      ∀ {prev w1 out}, Chunks M R prev (B ++ w1) out →
        ∃ out2, out = B ++ out2 ∧ Chunks M R (ctx prev B) w1 out2 := by
  intro B
  induction B with
  | nil =>
    intro _ prev w1 out hch
    exact ⟨out, rfl, hch⟩
  | cons b B' ih =>
    intro hdead prev w1 out hch
    have hnone : M prev ((b :: B') ++ w1) = none :=
      hdead [] (b :: B') rfl (by simp) prev w1
    rcases chunks_keep_inv hch hnone with ⟨hl, -⟩ | ⟨c, cs, out2, hl, hout, hsub⟩
    · exact absurd hl (by simp)
    · have hpair : b = c ∧ B' ++ w1 = cs := by simpa using hl
      obtain ⟨hbc, hcs⟩ := hpair
      subst hbc
      rw [← hcs] at hsub
      obtain ⟨out3, hout2, hsub2⟩ :=
        ih (fun u v h hv prev' tail => hdead (b :: u) v (by rw [h]; rfl) hv prev' tail) hsub
      exact ⟨out3, by rw [hout, hout2]; rfl, hsub2⟩

/-- A pass that keeps newlines preserves emptiness-or-newline-headedness
of a suffix. -/
theorem chunks_nlEnd {M : Matcher} {R : List Char}
    (hMnl : ∀ prev tail, M prev ('\n' :: tail) = none)
    {prev w1 out} (hch : Chunks M R prev w1 out) (hnl : nlEnd w1) : nlEnd out := by
  rcases hnl with h | ⟨w', h⟩
  · exact Or.inl (chunks_nil_inv hch h)
  · subst h
    rcases chunks_keep_inv hch (hMnl prev w') with ⟨hl, -⟩ | ⟨c, cs, out2, hl, hout, -⟩
    · exact absurd hl (by simp)
    · have hc : '\n' = c := (List.cons.injEq .. ▸ hl).1
      right
      exact ⟨out2, by rw [hout, ← hc]⟩

/-! ### The line-rule matchers fire on every case-insensitive occurrence -/

theorem tryName_ci_ne_none {l} (h : ciPre "name:".data l) : tryName l ≠ none := by
  obtain ⟨m, w, hdec, hm⟩ := h
  subst hdec
  unfold tryName
  rw [leadCI_complete hm w]
  cases h2 : spanP isSpaceCh w with
  | mk m2 r2 =>
    cases h3 : spanP (fun c => !(c == '\n')) r2 with
    | mk m3 r3 => simp [h2, h3]

theorem tryDob_ci_ne_none {l} (h : ciPre "dob:".data l) : tryDob l ≠ none := by
  obtain ⟨m, w, hdec, hm⟩ := h
  subst hdec
  unfold tryDob
  rw [leadCI_complete hm w]
  cases h2 : spanP isSpaceCh w with
  | mk m2 r2 =>
    cases h3 : spanP (fun c => !(c == '\n')) r2 with
    | mk m3 r3 => simp [h2, h3]

/-! ### Establishing and preserving the block invariant -/

/-- A pass whose context-free matcher fires on every case-insensitive
occurrence of `P`, whose matches end at a newline or the end, and whose
replacement is the block `B` itself (which contains no interior
occurrence of `P` and no alignment of a proper tail of `P` with its
start), leaves every occurrence of `P` in its output heading a full
block that runs to a newline or the end. -/
theorem blockInv_selfclear {tM : List Char → Option (List Char × List Char)}
    {P B : List Char} (hP : P ≠ [])
    (htM_ci : ∀ l, ciPre P l → tM l ≠ none)
    (htM_rest : ∀ l m r, tM l = some (m, r) → nlEnd r)
    (htMnl : ∀ tail, tM ('\n' :: tail) = none)
    (hB1 : ∀ u v, B = u ++ v → u ≠ [] → v ≠ [] → ∀ tail, ¬ ciPre P (v ++ tail))
    (hB2 : ∀ p1 p2, P = p1 ++ p2 → p1 ≠ [] → p2 ≠ [] → ∀ tail,
      ((B ++ tail).take p2.length).map lowerCh ≠ p2)
    {prev l out} (hch : Chunks (fun _ l => tM l) B prev l out) :
    BlockInv P B out := by
  intro u v hdec hci
  rcases chunks_cut hch u v hdec with ⟨lu, lv, hl, hsub⟩ |
    ⟨r1, r2, out2, hr, hr1ne, hr2ne, hv⟩
  · obtain ⟨m, w, hvmw, hm⟩ := hci
    rcases chunks_kept_split m hsub hvmw with
      ⟨lw, hlv, hsub2, hspec⟩ |
      ⟨p1, p2, out2, hmp, hp2ne, hpw, prev2, m0, r0, hM0, hm0ne, hsub2⟩
    · exfalso
      have hmne : m ≠ [] := by
        intro hz
        rw [hz] at hm
        exact hP (by simpa using hm.symm)
      rcases hspec with hz | hnone
      · exact hmne hz
      · exact htM_ci lv ⟨m, lw, hlv, hm⟩ hnone
    · cases p1 with
      | nil =>
        simp only [List.nil_append] at hmp
        refine ⟨out2, ?_, ?_⟩
        · rw [hvmw, hmp, hpw]
        · exact chunks_nlEnd (fun prev' tail => htMnl tail) hsub2 (htM_rest _ _ _ hM0)
      | cons a p1' =>
        exfalso
        have hPdec : P = ((a :: p1').map lowerCh) ++ (p2.map lowerCh) := by
          rw [← List.map_append, ← hmp, hm]
        have htake : (B ++ out2).take p2.length = p2 := by
          rw [← hpw]
          exact List.take_left ..
        apply hB2 ((a :: p1').map lowerCh) (p2.map lowerCh) hPdec (by simp)
          (by simpa using hp2ne) out2
        rw [List.length_map, htake]
  · exact absurd (hv ▸ hci) (hB1 r1 r2 hr hr1ne hr2ne out2)

/-- A later pass preserves the block invariant provided no match of its
matcher can start inside the protected block, newlines are kept, and its
replacement neither contains an occurrence of `P` nor aligns with a
proper tail of `P`. -/
theorem blockInv_preserved {M : Matcher} {R P B : List Char}
    (hRne : R ≠ [])
    (hMnl : ∀ prev tail, M prev ('\n' :: tail) = none)
    (hBdead : ∀ u v, B = u ++ v → v ≠ [] → ∀ prev tail, M prev (v ++ tail) = none)
    (hR1 : ∀ u v, R = u ++ v → v ≠ [] → ∀ tail, ¬ ciPre P (v ++ tail))
    (hR2 : ∀ p1 p2, P = p1 ++ p2 → p1 ≠ [] → p2 ≠ [] → ∀ tail,
      ((R ++ tail).take p2.length).map lowerCh ≠ p2)
    {prev l out} (hch : Chunks M R prev l out)
    (hInv : BlockInv P B l) : BlockInv P B out := by
  intro u v hdec hci
  rcases chunks_cut hch u v hdec with ⟨lu, lv, hl, hsub⟩ |
    ⟨r1, r2, out2, hr, hr1ne, hr2ne, hv⟩
  · obtain ⟨m, w, hvmw, hm⟩ := hci
    rcases chunks_kept_split m hsub hvmw with
      ⟨lw, hlv, hsub2, hspec⟩ |
      ⟨p1, p2, out2, hmp, hp2ne, hpw, prev2, m0, r0, hM0, hm0ne, hsub2⟩
    · have hcilv : ciPre P lv := ⟨m, lw, hlv, hm⟩
      obtain ⟨w1, hlveq, hnlw1⟩ := hInv lu lv hl hcilv
      rw [hlveq] at hsub
      obtain ⟨v2, hveq, hsub3⟩ := chunks_skip_block B hBdead hsub
      exact ⟨v2, hveq, chunks_nlEnd hMnl hsub3 hnlw1⟩
    · cases p1 with
      | nil =>
        exfalso
        simp only [List.nil_append] at hmp
        have hciR : ciPre P (R ++ out2) := ⟨m, w, by rw [← hpw, hmp], hm⟩
        exact hR1 [] R rfl hRne out2 hciR
      | cons a p1' =>
        exfalso
        have hPdec : P = ((a :: p1').map lowerCh) ++ (p2.map lowerCh) := by
          rw [← List.map_append, ← hmp, hm]
        have htake : (R ++ out2).take p2.length = p2 := by
          rw [← hpw]
          exact List.take_left ..
        apply hR2 ((a :: p1').map lowerCh) (p2.map lowerCh) hPdec (by simp)
          (by simpa using hp2ne) out2
        rw [List.length_map, htake]
  · exact absurd (hv ▸ hci) (hR1 r1 r2 hr hr2ne out2)

/-! ### The five passes of `deidentify_text`, staged -/

/-- Pass 1 of `deidentify_text` (name rule). -/
def scrub1 (t : String) : String :=
  reSub (fun _ l => tryName l) "Name: <<PATIENT_NAME>>" t

/-- Passes 1–2 of `deidentify_text` (plus DOB rule). -/
def scrub2 (t : String) : String :=
  reSub (fun _ l => tryDob l) "DOB: <<DOB>>" (scrub1 t)

/-- Passes 1–3 of `deidentify_text` (plus NHS-number rule). -/
def scrub3 (t : String) : String :=
  reSub tryNHS "<<NHS_NUMBER>>" (scrub2 t)

/-- Passes 1–4 of `deidentify_text` (plus postcode rule). -/
def scrub4 (t : String) : String :=
  reSub tryPC "<<POSTCODE>>" (scrub3 t)

/-- All five passes of `deidentify_text`. -/
def scrub5 (t : String) : String :=
  reSub tryPhone "<<PHONE_NUMBER>>" (scrub4 t)

theorem deidentify_eq_scrub5 (t : String) : deidentify_text t = scrub5 t := rfl

theorem chunks_scrub1 (t : String) :
    Chunks (fun _ l => tryName l) NAMEB none t.data (scrub1 t).data :=
  chunks_scanSub spanning_tryName t.data.length t.data none (Nat.le_refl _)

theorem chunks_scrub2 (t : String) :
    Chunks (fun _ l => tryDob l) DOBB none (scrub1 t).data (scrub2 t).data :=
  chunks_scanSub spanning_tryDob (scrub1 t).data.length (scrub1 t).data none
    (Nat.le_refl _)

theorem chunks_scrub3 (t : String) :
    Chunks tryNHS NHSR none (scrub2 t).data (scrub3 t).data :=
  chunks_scanSub spanning_tryNHS (scrub2 t).data.length (scrub2 t).data none
    (Nat.le_refl _)

theorem chunks_scrub4 (t : String) :
    Chunks tryPC PCR none (scrub3 t).data (scrub4 t).data :=
  chunks_scanSub spanning_tryPC (scrub3 t).data.length (scrub3 t).data none
    (Nat.le_refl _)

theorem chunks_scrub5 (t : String) :
    Chunks tryPhone PHR none (scrub4 t).data (scrub5 t).data :=
  chunks_scanSub spanning_tryPhone (scrub4 t).data.length (scrub4 t).data none
    (Nat.le_refl _)

/-! ### The four invariants of fully scrubbed text -/

theorem blockInv_name_scrub (t : String) :
    BlockInv "name:".data NAMEB (scrub5 t).data := by
  have h1 : BlockInv "name:".data NAMEB (scrub1 t).data :=
    blockInv_selfclear (by decide)
      (fun l h => tryName_ci_ne_none h)
      (fun l m r h => (tryName_some h).2.2.1)
      tryName_nl
      (ciInside_dead_proper (by
        intro k hk1 hk2
        rw [show NAMEB.length = 22 from by decide] at hk2
        interval_cases k <;> exact ⟨by decide, by decide⟩))
      (ciStraddle_dead (by decide) (by
        intro k hk1 hk2
        rw [show ("name:".data).length = 5 from by decide] at hk2
        interval_cases k <;> decide))
      (chunks_scrub1 t)
  have h2 : BlockInv "name:".data NAMEB (scrub2 t).data :=
    blockInv_preserved (by decide)
      (fun prev tail => tryDob_nl tail)
      (fun u v h hv prev tail => tryDob_dead_chars (by decide) u v h hv tail)
      (ciInside_dead (by
        intro k hk
        rw [show DOBB.length = 12 from by decide] at hk
        interval_cases k <;> exact ⟨by decide, by decide⟩))
      (ciStraddle_dead (by decide) (by
        intro k hk1 hk2
        rw [show ("name:".data).length = 5 from by decide] at hk2
        interval_cases k <;> decide))
      (chunks_scrub2 t) h1
  have h3 : BlockInv "name:".data NAMEB (scrub3 t).data :=
    blockInv_preserved (by decide)
      tryNHS_nl
      (tryNHS_dead_chars (by decide))
      (ciInside_dead (by
        intro k hk
        rw [show NHSR.length = 14 from by decide] at hk
        interval_cases k <;> exact ⟨by decide, by decide⟩))
      (ciStraddle_dead (by decide) (by
        intro k hk1 hk2
        rw [show ("name:".data).length = 5 from by decide] at hk2
        interval_cases k <;> decide))
      (chunks_scrub3 t) h2
  have h4 : BlockInv "name:".data NAMEB (scrub4 t).data :=
    blockInv_preserved (by decide)
      tryPC_nl
      tryPC_dead_NAMEB
      (ciInside_dead (by
        intro k hk
        rw [show PCR.length = 12 from by decide] at hk
        interval_cases k <;> exact ⟨by decide, by decide⟩))
      (ciStraddle_dead (by decide) (by
        intro k hk1 hk2
        rw [show ("name:".data).length = 5 from by decide] at hk2
        interval_cases k <;> decide))
      (chunks_scrub4 t) h3
  exact blockInv_preserved (by decide)
    tryPhone_nl
    (tryPhone_dead_chars (by decide))
    (ciInside_dead (by
      intro k hk
      rw [show PHR.length = 16 from by decide] at hk
      interval_cases k <;> exact ⟨by decide, by decide⟩))
    (ciStraddle_dead (by decide) (by
      intro k hk1 hk2
      rw [show ("name:".data).length = 5 from by decide] at hk2
      interval_cases k <;> decide))
    (chunks_scrub5 t) h4

theorem blockInv_dob_scrub (t : String) :
    BlockInv "dob:".data DOBB (scrub5 t).data := by
  have h2 : BlockInv "dob:".data DOBB (scrub2 t).data :=
    blockInv_selfclear (by decide)
      (fun l h => tryDob_ci_ne_none h)
      (fun l m r h => (tryDob_some h).2.2.1)
      tryDob_nl
      (ciInside_dead_proper (by
        intro k hk1 hk2
        rw [show DOBB.length = 12 from by decide] at hk2
        interval_cases k <;> exact ⟨by decide, by decide⟩))
      (ciStraddle_dead (by decide) (by
        intro k hk1 hk2
        rw [show ("dob:".data).length = 4 from by decide] at hk2
        interval_cases k <;> decide))
      (chunks_scrub2 t)
  have h3 : BlockInv "dob:".data DOBB (scrub3 t).data :=
    blockInv_preserved (by decide)
      tryNHS_nl
      (tryNHS_dead_chars (by decide))
      (ciInside_dead (by
        intro k hk
        rw [show NHSR.length = 14 from by decide] at hk
        interval_cases k <;> exact ⟨by decide, by decide⟩))
      (ciStraddle_dead (by decide) (by
        intro k hk1 hk2
        rw [show ("dob:".data).length = 4 from by decide] at hk2
        interval_cases k <;> decide))
      (chunks_scrub3 t) h2
  have h4 : BlockInv "dob:".data DOBB (scrub4 t).data :=
    blockInv_preserved (by decide)
      tryPC_nl
      tryPC_dead_DOBB
      (ciInside_dead (by
        intro k hk
        rw [show PCR.length = 12 from by decide] at hk
        interval_cases k <;> exact ⟨by decide, by decide⟩))
      (ciStraddle_dead (by decide) (by
        intro k hk1 hk2
        rw [show ("dob:".data).length = 4 from by decide] at hk2
        interval_cases k <;> decide))
      (chunks_scrub4 t) h3
  exact blockInv_preserved (by decide)
    tryPhone_nl
    (tryPhone_dead_chars (by decide))
    (ciInside_dead (by
      intro k hk
      rw [show PHR.length = 16 from by decide] at hk
      interval_cases k <;> exact ⟨by decide, by decide⟩))
    (ciStraddle_dead (by decide) (by
      intro k hk1 hk2
      rw [show ("dob:".data).length = 4 from by decide] at hk2
      interval_cases k <;> decide))
    (chunks_scrub5 t) h4

theorem noM_nhs_scrub (t : String) : NoM tryNHS none (scrub5 t).data := by
  have h3 : NoM tryNHS none (scrub3 t).data :=
    noM_selfclear
      (fun prev l m r h => tryNHS_some h)
      (fun prev m r hp hm hb => tryNHS_ne_none hp hm hb)
      (fun m h => nhsShape_ne h)
      (fun m h => nhsShape_cls h)
      (fun m c h hc => nhsShape_head h hc)
      (fun m c h hc => nhsShape_last h hc)
      (by decide)
      (by
        intro c hc
        rw [show NHSR.head? = some '<' from rfl] at hc
        have h := (Option.some.inj hc).symm
        subst h
        decide)
      (tryNHS_dead_chars (by decide))
      (chunks_scrub3 t) none (Or.inl rfl)
  have h4 : NoM tryNHS none (scrub4 t).data :=
    noM_preserved
      (fun prev l m r h => tryNHS_some h)
      (fun prev m r hp hm hb => tryNHS_ne_none hp hm hb)
      (fun m h => nhsShape_ne h)
      (fun m h => nhsShape_cls h)
      (fun m c h hc => nhsShape_head h hc)
      (fun m c h hc => nhsShape_last h hc)
      (fun prev l m r h => (tryPC_some h).2.2.1)
      (fun prev l m r h => (tryPC_some h).2.2.2)
      (by decide)
      (by
        intro c hc
        rw [show PCR.head? = some '<' from rfl] at hc
        have h := (Option.some.inj hc).symm
        subst h
        decide)
      (tryNHS_dead_chars (by decide))
      (chunks_scrub4 t) none (Or.inl rfl) h3
  exact noM_preserved
    (fun prev l m r h => tryNHS_some h)
    (fun prev m r hp hm hb => tryNHS_ne_none hp hm hb)
    (fun m h => nhsShape_ne h)
    (fun m h => nhsShape_cls h)
    (fun m c h hc => nhsShape_head h hc)
    (fun m c h hc => nhsShape_last h hc)
    (fun prev l m r h => (tryPhone_some h).2.2.1)
    (fun prev l m r h => (tryPhone_some h).2.2.2)
    (by decide)
    (by
      intro c hc
      rw [show PHR.head? = some '<' from rfl] at hc
      have h := (Option.some.inj hc).symm
      subst h
      decide)
    (tryNHS_dead_chars (by decide))
    (chunks_scrub5 t) none (Or.inl rfl) h4

theorem noM_pc_scrub (t : String) : NoM tryPC none (scrub5 t).data := by
  have h4 : NoM tryPC none (scrub4 t).data :=
    noM_selfclear
      (fun prev l m r h => tryPC_some h)
      (fun prev m r hp hm hb => tryPC_ne_none hp hm hb)
      (fun m h => pcShape_ne h)
      (fun m h => pcShape_cls h)
      (fun m c h hc => pcShape_head h hc)
      (fun m c h hc => pcShape_last h hc)
      (by decide)
      (by
        intro c hc
        rw [show PCR.head? = some '<' from rfl] at hc
        have h := (Option.some.inj hc).symm
        subst h
        decide)
      tryPC_dead_PCR
      (chunks_scrub4 t) none (Or.inl rfl)
  exact noM_preserved
    (fun prev l m r h => tryPC_some h)
    (fun prev m r hp hm hb => tryPC_ne_none hp hm hb)
    (fun m h => pcShape_ne h)
    (fun m h => pcShape_cls h)
    (fun m c h hc => pcShape_head h hc)
    (fun m c h hc => pcShape_last h hc)
    (fun prev l m r h => (tryPhone_some h).2.2.1)
    (fun prev l m r h => (tryPhone_some h).2.2.2)
    (by decide)
    (by
      intro c hc
      rw [show PHR.head? = some '<' from rfl] at hc
      have h := (Option.some.inj hc).symm
      subst h
      decide)
    tryPC_dead_PHR
    (chunks_scrub5 t) none (Or.inl rfl) h4

theorem noM_phone_scrub (t : String) : NoM tryPhone none (scrub5 t).data :=
  noM_selfclear
    (fun prev l m r h => tryPhone_some h)
    (fun prev m r hp hm hb => tryPhone_ne_none hp hm hb)
    (fun m h => phoneShape_ne h)
    (fun m h => phoneShape_cls h)
    (fun m c h hc => phoneShape_head h hc)
    (fun m c h hc => phoneShape_last h hc)
    (by decide)
    (by
      intro c hc
      rw [show PHR.head? = some '<' from rfl] at hc
      have h := (Option.some.inj hc).symm
      subst h
      decide)
    (tryPhone_dead_chars (by decide))
    (chunks_scrub5 t) none (Or.inl rfl)

/-- A string satisfying all four invariants is a fixed point of the
scrubber: each of the five passes leaves it unchanged. -/
theorem scrub_fixes {s : String}
    (h1 : BlockInv "name:".data NAMEB s.data)
    (h2 : BlockInv "dob:".data DOBB s.data)
    (h3 : NoM tryNHS none s.data)
    (h4 : NoM tryPC none s.data)
    (h5 : NoM tryPhone none s.data) :
    deidentify_text s = s := by
  show reSub tryPhone "<<PHONE_NUMBER>>"
      (reSub tryPC "<<POSTCODE>>"
        (reSub tryNHS "<<NHS_NUMBER>>"
          (reSub (fun _ l => tryDob l) "DOB: <<DOB>>"
            (reSub (fun _ l => tryName l) "Name: <<PATIENT_NAME>>" s)))) = s
  rw [reSub_eq_self spanning_tryName s (selfRepl_of_blockInv_name h1 none),
    reSub_eq_self spanning_tryDob s (selfRepl_of_blockInv_dob h2 none),
    reSub_eq_self spanning_tryNHS s (selfRepl_of_noM h3),
    reSub_eq_self spanning_tryPC s (selfRepl_of_noM h4),
    reSub_eq_self spanning_tryPhone s (selfRepl_of_noM h5)]

/-- C4: the scrubber is idempotent — `deidentify_text` applied to any of
its own outputs returns it unchanged, so for every input text `t`,
`deidentify_text (deidentify_text t) = deidentify_text t`; totality is
witnessed by `deidentify_text` being a total function on strings. -/
theorem deidentify_idem (t : String) :
    deidentify_text (deidentify_text t) = deidentify_text t := by
  rw [show deidentify_text t = scrub5 t from rfl]
  exact scrub_fixes (blockInv_name_scrub t) (blockInv_dob_scrub t)
    (noM_nhs_scrub t) (noM_pc_scrub t) (noM_phone_scrub t)

end CardioCoach
